import Mathlib

/-!
# ascii-art-output: a shallow embedding of the rendering pipeline

Source files embedded here: `banner.go` (LoadBanner), `render.go` (RenderLine,
decodeEscapedNewlines, RenderInput, RenderWithColor and its two helpers),
`color.go` (GetColorCode, FindSubstringIndexes, ContainsIndex, ParseColorArgs)
and `main.go` (main, with `os.Args`, the file system and the lower-case
mapping of the Go library as parameters).

Modelling conventions
* A Go `string` holding valid UTF-8 is the list of its code points (`Str`).
  `[]rune(s)` and `for _, ch := range s` see exactly this list. `len(s)` and
  `s[i:j]` work on the UTF-8 bytes, obtained with `bytes`.
* `strings.Builder` is a `Str` accumulator extended at its end.
* A slice index out of range is a run-time panic in Go: the functions that
  index a glyph return `Option`, `none` standing for the panic.
* Go `int` values are `Int`.
* A function returning `(value, error)` returns a pair whose second component
  is `none` for a nil error.
-/

namespace AsciiArt

/-- A Go string (valid UTF-8), as the sequence of its code points. -/
abbrev Str := List Char

/-- The UTF-8 bytes of a string; `len` and slicing in Go act on these. -/
def bytes (s : Str) : List UInt8 := s.flatMap String.utf8EncodeChar

/-- Go `len(s)` for a string: its number of bytes. -/
def len (s : Str) : Nat := (bytes s).length

/-- The line break character. -/
def LF : Char := '\n'

/-- The carriage return character. -/
def CR : Char := '\r'

/-- The backslash character. -/
def backslash : Char := '\\'

/-! ## banner.go: constants and the Banner map -/

def firstChar : Nat := 32

def lastChar : Nat := 126

def charHeight : Nat := 8

/-- The type `Banner map[rune][]string`, as an association list whose keys are
kept distinct by `Banner.set`; a lookup takes the first binding of the key. -/
abbrev Banner := List (Char × List Str)

/-- The map read `b[ch]` with its `ok` flag: `none` when the key is absent. -/
def Banner.get (b : Banner) (ch : Char) : Option (List Str) := List.lookup ch b

/-- The map write `b[k] = v`: replaces the binding of `k` if there is one. -/
def Banner.set (b : Banner) (k : Char) (v : List Str) : Banner :=
  (k, v) :: b.filter (fun e => e.1 != k)

/-! ## render.go: RenderLine -/

/-- RenderLine: for each row 0..7, for each code point of `s`, append that
row of the glyph (of the all-empty glyph when the banner has no entry), then a
line break. `glyph[row]` panics when the glyph has too few rows. -/
def RenderLine (s : Str) (b : Banner) : Option Str :=
  let height := charHeight
  let empty : List Str := List.replicate height []
  (List.range height).foldlM (fun builder row => do
    let builder ← s.foldlM (fun builder ch => do
      let glyph := match b.get ch with
        | some g => g
        | none => empty
      let cell ← glyph[row]?
      pure (builder ++ cell)) builder
    pure (builder ++ [LF])) []

/-! ## render.go: decodeEscapedNewlines -/

/-- The index loop of `decodeEscapedNewlines`: at index `i`, a backslash
followed (inside the slice) by `n` appends a line break and skips both, any
other rune is copied. -/
def decodeLoop (runes : List Char) (i : Nat) (out : List Char) : List Char :=
  if h : i < runes.length then
    if runes[i] = backslash ∧ runes[i + 1]? = some 'n' then
      decodeLoop runes (i + 1 + 1) (out ++ [LF])
    else
      decodeLoop runes (i + 1) (out ++ [runes[i]])
  else out
termination_by runes.length - i

/-- The function decodeEscapedNewlines: runs the loop from index 0 with an empty output. -/
def decodeEscapedNewlines (s : Str) : Str := decodeLoop s 0 []

/-- The reference left-to-right scan of the specification. -/
def dec : List Char → List Char
  | [] => []
  | [c] => [c]
  | c :: d :: rest =>
    if c = backslash ∧ d = 'n' then LF :: dec rest else c :: dec (d :: rest)

/-! ## render.go: RenderInput -/

/-- Go `strings.Split(s, "\n")`: the segments between line breaks, empty
segments kept; a text without line break gives one segment. -/
def splitLF : Str → List Str
  | [] => [[]]
  | c :: rest =>
    if c = LF then [] :: splitLF rest
    else
      match splitLF rest with
      | [] => [[c]]
      | p :: ps => (c :: p) :: ps

/-- The `for i, part := range parts` loop of RenderInput: `n` is `len(parts)`,
`i` the index of the head of the remaining parts, `builder` and `hadText` the
loop state. -/
def renderParts (b : Banner) (n : Nat) : List Str → Nat → Str → Bool → Option Str
  | [], _, builder, _ => some builder
  | part :: rest, i, builder, hadText =>
    let last : Bool := decide ((i : Int) = (n : Int) - 1)
    if part ≠ [] then do
      let asciiBlock ← RenderLine part b
      renderParts b n rest (i + 1) (builder ++ asciiBlock) true
    else if !last then
      renderParts b n rest (i + 1) (builder ++ [LF]) hadText
    else if hadText then
      renderParts b n rest (i + 1) (builder ++ [LF]) hadText
    else
      renderParts b n rest (i + 1) builder hadText

/-- RenderInput: decode the escapes, then nothing for an empty text, one
RenderLine for a text without line break, the loop over the parts otherwise. -/
def RenderInput (input : Str) (b : Banner) : Option Str :=
  let input := decodeEscapedNewlines input
  if input = [] then some []
  else if ¬ LF ∈ input then RenderLine input b
  else
    let parts := splitLF input
    renderParts b parts.length parts 0 [] false

/-! ## color.go: ResetColor, FindSubstringIndexes, ContainsIndex -/

/-- The reset code `"\033[0m"`. -/
def ResetColor : Str := "\x1b[0m".toList

/-- ContainsIndex: linear search of `target` in `indexes`. -/
def ContainsIndex : List Int → Int → Bool
  | [], _ => false
  | idx :: rest, target => if idx = target then true else ContainsIndex rest target

/-- Go `t[i:j]` on bytes, for `i ≤ j ≤ len(t)`. -/
def sliceBytes (t : List UInt8) (i j : Nat) : List UInt8 := (t.drop i).take (j - i)

/-- The loop `for i := range text { result[i] = i }` of the empty-substring
branch: `i` runs over the byte offsets at which a code point starts. -/
def fillOffsets : List Char → Nat → List Int → List Int
  | [], _, result => result
  | ch :: rest, i, result =>
    fillOffsets rest (i + (String.utf8EncodeChar ch).length) (result.set i (i : Int))

/-- FindSubstringIndexes: with an empty substring, a slice of `len(text)`
zeros filled at the code point starts; otherwise every start offset `i` from 0
to `len(text) - len(substring)` (an `int`, possibly negative) is tested and a
match appends `i .. i + len(substring) - 1`. -/
def FindSubstringIndexes (text substring : Str) : List Int :=
  if substring = [] then
    fillOffsets text 0 (List.replicate (len text) 0)
  else
    let t := bytes text
    let s := bytes substring
    let bound : Int := (t.length : Int) - (s.length : Int)
    (List.range (bound + 1).toNat).foldl (fun indexes i =>
      if sliceBytes t i (i + s.length) = s then
        (List.range s.length).foldl (fun indexes j => indexes ++ [((i + j : Nat) : Int)]) indexes
      else indexes) []

/-! ## render.go: RenderWithColor -/

/-- The `for charIndex, ch := range chars` loop of renderSingleLineWithColor
for one row: a character whose index is in `indexes` gets the colour code
before its row and the reset code after it. -/
def colorRowLoop (banner : Banner) (colorCode : Str) (indexes : List Int) (row : Nat) :
    List Char → Nat → Str → Option Str
  | [], _, builder => some builder
  | ch :: rest, charIndex, builder => do
    let glyph := match banner.get ch with
      | some g => g
      | none => List.replicate charHeight []
    let shouldColor := ContainsIndex indexes (charIndex : Int)
    let cell ← glyph[row]?
    if shouldColor then
      colorRowLoop banner colorCode indexes row rest (charIndex + 1)
        (builder ++ colorCode ++ cell ++ ResetColor)
    else
      colorRowLoop banner colorCode indexes row rest (charIndex + 1) (builder ++ cell)

/-- The function renderSingleLineWithColor: rows 0..7, each ended by a line
break. -/
def renderSingleLineWithColor (input : Str) (banner : Banner) (colorCode : Str)
    (indexes : List Int) : Option Str :=
  let height := charHeight
  let chars : List Char := input
  (List.range height).foldlM (fun builder row => do
    let builder ← colorRowLoop banner colorCode indexes row chars 0 builder
    pure (builder ++ [LF])) []

/-- The inner loop of renderMultiLineWithColor computing `lineIndexes`: the
global indexes inside `[totalPos, totalPos + len(line))`, re-based. -/
def lineIndexes (indexes : List Int) (totalPos : Int) (lineLen : Int) : List Int :=
  indexes.filterMap (fun idx =>
    if idx ≥ totalPos ∧ idx < totalPos + lineLen then some (idx - totalPos) else none)

/-- The `for i, line := range lines` loop of renderMultiLineWithColor, with
its state `builder`, `hadText` and `totalPos`. -/
def colorParts (banner : Banner) (colorCode : Str) (indexes : List Int) (n : Nat) :
    List Str → Nat → Str → Bool → Int → Option Str
  | [], _, builder, _, _ => some builder
  | line :: rest, i, builder, hadText, totalPos =>
    let isLast : Bool := decide ((i : Int) = (n : Int) - 1)
    if line ≠ [] then do
      let asciiBlock ← renderSingleLineWithColor line banner colorCode
        (lineIndexes indexes totalPos (len line))
      colorParts banner colorCode indexes n rest (i + 1) (builder ++ asciiBlock) true
        (totalPos + ((len line : Int) + 1))
    else if !isLast then
      colorParts banner colorCode indexes n rest (i + 1) (builder ++ [LF]) hadText (totalPos + 1)
    else if hadText then
      colorParts banner colorCode indexes n rest (i + 1) (builder ++ [LF]) hadText (totalPos + 1)
    else
      colorParts banner colorCode indexes n rest (i + 1) builder hadText (totalPos + 1)

/-- The function renderMultiLineWithColor: split on the line break and run
the loop from offset 0. -/
def renderMultiLineWithColor (input : Str) (banner : Banner) (colorCode : Str)
    (indexes : List Int) : Option Str :=
  let lines := splitLF input
  colorParts banner colorCode indexes lines.length lines 0 [] false 0

/-- RenderWithColor: decode the escapes, then dispatch on empty, multi-line
and single-line input. -/
def RenderWithColor (input : Str) (banner : Banner) (colorCode : Str)
    (indexes : List Int) : Option Str :=
  let input := decodeEscapedNewlines input
  if input = [] then some []
  else if LF ∈ input then renderMultiLineWithColor input banner colorCode indexes
  else renderSingleLineWithColor input banner colorCode indexes

/-- Steps 6d and 6e of `main`: the positions are computed on the text of the
command line and handed, with the same text, to RenderWithColor. -/
def mainColored (text substring : Str) (banner : Banner) (colorCode : Str) : Option Str :=
  let indexes := FindSubstringIndexes text substring
  RenderWithColor text banner colorCode indexes

/-! ## banner.go: LoadBanner -/

/-- The errors LoadBanner returns: the one of `os.ReadFile`, or the
"not enough lines for char" error carrying the character. -/
inductive LoadError where
  | readFailed : LoadError
  | notEnoughLines (code : Char) : LoadError
deriving DecidableEq, Repr

/-- Go `strings.ReplaceAll(s, "\r\n", "\n")`: left to right, non-overlapping. -/
def replaceCRLF : Str → Str
  | [] => []
  | [c] => [c]
  | c :: d :: rest =>
    if c = CR ∧ d = LF then LF :: replaceCRLF rest else c :: replaceCRLF (d :: rest)

/-- Go `strings.ReplaceAll(s, "\r", "\n")`. -/
def replaceCR (s : Str) : Str := s.map (fun c => if c = CR then LF else c)

/-- The lines LoadBanner works on: both replacements, then the split. -/
def bannerLines (data : Str) : List Str := splitLF (replaceCR (replaceCRLF data))

def blockSize : Nat := charHeight + 1

/-- The `for code := firstChar; code <= lastChar; code++` loop of LoadBanner
over the codes still to do; the result is the Go pair (Banner, error), a nil
Banner being `none`. -/
def loadLoop (lines : List Str) : List Nat → Banner → Option Banner × Option LoadError
  | [], banner => (some banner, none)
  | code :: rest, banner =>
    let blockIndex := code - firstChar
    let start := blockIndex * blockSize
    if start + 1 + charHeight > lines.length then
      (none, some (LoadError.notEnoughLines (Char.ofNat code)))
    else
      let glyphLines := (lines.drop (start + 1)).take (start + 1 + charHeight - (start + 1))
      loadLoop lines rest (banner.set (Char.ofNat code) glyphLines)

/-- LoadBanner, given what `os.ReadFile` returned (`none` for a read error). -/
def LoadBanner (file : Option Str) : Option Banner × Option LoadError :=
  match file with
  | none => (none, some LoadError.readFailed)
  | some data =>
    let lines := bannerLines data
    loadLoop lines (List.range' firstChar (lastChar + 1 - firstChar)) []

/-! ## main_test.go: the test banner -/

/-- The banner of `fakeBanner()`: rows `A0..A7`, `B0..B7` and ` 0.. 7`. -/
def fakeBanner : Banner :=
  [('A', (List.range charHeight).map (fun i => 'A' :: (toString i).toList)),
   ('B', (List.range charHeight).map (fun i => 'B' :: (toString i).toList)),
   (' ', (List.range charHeight).map (fun i => ' ' :: (toString i).toList))]

/-! ## Specification-side definitions -/

/-- A glyph set in which every entry has at least 8 rows. -/
def Banner.TallEnough (b : Banner) : Prop :=
  ∀ ch g, b.get ch = some g → charHeight ≤ g.length

/-- Row `row` of the glyph of `ch`; the empty string when `ch` has no entry. -/
def glyphRow (b : Banner) (row : Nat) (ch : Char) : Str :=
  match b.get ch with
  | some g => g.getD row []
  | none => []

/-- The row-major art of a text: for each row 0..7 the rows of the glyphs in
input order, then one line break. -/
def rowMajor (b : Banner) (s : Str) : Str :=
  (List.range charHeight).flatMap (fun row => s.flatMap (glyphRow b row) ++ [LF])

/-- The body of the inner loop of RenderLine, named for the proofs. -/
def lineStep (b : Banner) (row : Nat) (builder : Str) (ch : Char) : Option Str := do
  let glyph := match b.get ch with
    | some g => g
    | none => List.replicate charHeight []
  let cell ← glyph[row]?
  pure (builder ++ cell)

/-- What an empty segment at index `i` contributes: a bare line break when it
is not the last segment, or when it is the last one and some earlier segment
is non-empty; nothing otherwise. -/
def gapPiece (parts : List Str) (i : Nat) : Str :=
  if i + 1 < parts.length then [LF]
  else if (parts.take i).any (fun p => decide (p ≠ [])) then [LF]
  else []

/-- The contribution of segment `i` to the output of RenderInput. -/
def inputPiece (b : Banner) (parts : List Str) (i : Nat) : Option Str :=
  if parts.getD i [] ≠ [] then RenderLine (parts.getD i []) b
  else some (gapPiece parts i)

/-- The concatenation of the contributions of all segments, in order. -/
def inputSpec (b : Banner) (parts : List Str) : Option Str :=
  ((List.range parts.length).mapM (inputPiece b parts)).map List.flatten

/-- The art of segment `i` on a glyph set with tall enough entries. -/
def inputPieceArt (b : Banner) (parts : List Str) (i : Nat) : Str :=
  if parts.getD i [] ≠ [] then rowMajor b (parts.getD i []) else gapPiece parts i

/-- The rows LoadBanner stores for `code`: the 8 lines after the first line
of its block. -/
def glyphAt (lines : List Str) (code : Nat) : List Str :=
  (lines.drop ((code - firstChar) * blockSize + 1)).take charHeight

/-- The codes LoadBanner goes through: 32, 33, ..., 126. -/
def bannerCodes : List Nat := List.range' firstChar (lastChar + 1 - firstChar)

/-- The mapping a successful LoadBanner builds from the lines. -/
def bannerOf (lines : List Str) : Banner :=
  (bannerCodes.map (fun code => (Char.ofNat code, glyphAt lines code))).reverse

/-- A glyph file of 95 blocks whose art rows are all `x` and whose separator
lines are empty. -/
def blockFile : Str :=
  (List.replicate 95 (LF :: (List.replicate 8 ['x', LF]).flatten)).flatten


/-- The row-`row` contribution of the character `ch` at position `k`: wrapped
in the colour code and the reset code when `k` is coloured. -/
def coloredCell (b : Banner) (colorCode : Str) (colored : Nat → Bool) (row k : Nat)
    (ch : Char) : Str :=
  if colored k then colorCode ++ glyphRow b row ch ++ ResetColor else glyphRow b row ch

/-- The coloured row-major art of a line: rows 0..7, each the contributions of
the characters at positions 0, 1, ... followed by one line break. -/
def coloredArt (b : Banner) (colorCode : Str) (colored : Nat → Bool) (chars : List Char) :
    Str :=
  (List.range charHeight).flatMap (fun row =>
    chars.enum.flatMap (fun p => coloredCell b colorCode colored row p.1 p.2) ++ [LF])

/-- The offset of segment `i` in the decoded text: the sum over the earlier
segments of their length plus one. -/
def segOffset (parts : List Str) (i : Nat) : Nat :=
  ((parts.take i).map (fun p => p.length + 1)).sum

/-- The contribution of segment `i` to the coloured output: the art of a
non-empty segment, character `k` coloured iff `segOffset + k` is a global
position; the blank-line rule for an empty one. -/
def colorPieceArt (b : Banner) (colorCode : Str) (indexes : List Int) (parts : List Str)
    (i : Nat) : Str :=
  if parts.getD i [] ≠ [] then
    coloredArt b colorCode
      (fun k => decide (((segOffset parts i + k : Nat) : Int) ∈ indexes)) (parts.getD i [])
  else gapPiece parts i

/-- A test banner in the style of `fakeBanner()` for the letters A to D: the
rows of a letter are the letter followed by the row number. -/
def letterBanner : Banner :=
  "ABCD".toList.map (fun ch => (ch, (List.range charHeight).map (fun i => ch :: (toString i).toList)))

/-- The offsets one matching start `i` contributes: `i .. i + m - 1`. -/
def matchOffsets (t s : List UInt8) (i : Nat) : List Int :=
  if sliceBytes t i (i + s.length) = s then (List.range s.length).map (fun j => ((i + j : Nat) : Int))
  else []

/-- No two occurrences of the substring in the text overlap. -/
def NoOverlap (text substring : Str) : Prop :=
  ∀ i j : Nat, i < j →
    sliceBytes (bytes text) i (i + len substring) = bytes substring →
    sliceBytes (bytes text) j (j + len substring) = bytes substring →
    i + len substring ≤ j

/-- The two-character text made of U+00E9 and the letter a. -/
def textEA : Str := [Char.ofNat 233, 'a']

/-- A glyph set none of whose rows contains a line break. -/
def Banner.RowsClean (b : Banner) : Prop :=
  ∀ ch g, b.get ch = some g → ∀ r ∈ g, LF ∉ r

/-- The number of line breaks the specification gives for the logical lines
`parts`: 8 per non-empty line, one per empty line that is not the last, one
more when the last line is empty and some line is non-empty. -/
def lineCountSpec (parts : List Str) : Nat :=
  8 * (parts.filter (fun p => decide (p ≠ []))).length
    + (parts.dropLast.filter (fun p => decide (p = []))).length
    + (if parts.getLast? = some [] ∧ parts.any (fun p => decide (p ≠ [])) = true then 1 else 0)

/-- The line breaks the loop of RenderInput still emits for the remaining
parts, given the flag `hadText`. -/
def lineCountLoop : List Str → Bool → Nat
  | [], _ => 0
  | p :: rest, hadText =>
    if p ≠ [] then 8 + lineCountLoop rest true
    else if rest ≠ [] then 1 + lineCountLoop rest hadText
    else if hadText then 1 else 0

/-- The content with every LF replaced by CR LF. -/
def toCRLF (c : Str) : Str := c.flatMap (fun x => if x = LF then [CR, LF] else [x])

/-- The content with every LF replaced by a lone CR. -/
def toCR (c : Str) : Str := c.map (fun x => if x = LF then CR else x)

/-- The struct ColorOptions of color.go. -/
structure ColorOptions where
  UseColor : Bool
  Color : Str
  Substring : Str
  Text : Str
  Banner : Str
  OutputFile : Str
deriving DecidableEq, Repr

/-- Go `strings.HasPrefix(s, pre)`. -/
def HasPrefix (s pre : Str) : Bool := pre.isPrefixOf s

/-- The flag loop of ParseColorArgs,
`for i < len(args) && strings.HasPrefix(args[i], "--")`, over the arguments
from index `i` on: it ends with the options and the remaining arguments
`args[i:]`, or returns early with the options so far and an error. -/
def flagLoop : List Str → ColorOptions → Except (ColorOptions × String) (ColorOptions × List Str)
  | [], opts => Except.ok (opts, [])
  | a :: rest, opts =>
    if HasPrefix a "--".toList then
      if HasPrefix a "--color=".toList then
        let opts := { opts with UseColor := true, Color := a.drop 8 }
        if opts.Color = [] then Except.error (opts, "empty color")
        else flagLoop rest opts
      else if HasPrefix a "--output=".toList then
        let opts := { opts with OutputFile := a.drop 9 }
        if opts.OutputFile = [] then Except.error (opts, "empty output file")
        else flagLoop rest opts
      else Except.error (opts, "unknown flag")
    else Except.ok (opts, a :: rest)

/-- ParseColorArgs: the Go pair (ColorOptions, error), the error being `none`
for nil and the message otherwise. -/
def ParseColorArgs (args : List Str) : ColorOptions × Option String :=
  let opts : ColorOptions :=
    { UseColor := false, Color := [], Substring := [], Text := [],
      Banner := "standard".toList, OutputFile := [] }
  if args.length < 2 then (opts, some "missing arguments")
  else
    match flagLoop (args.drop 1) opts with
    | Except.error (opts, msg) => (opts, some msg)
    | Except.ok (opts, remaining) =>
      if remaining = [] then (opts, some "missing text")
      else
        match remaining with
        | [text] => ({ opts with Text := text }, none)
        | [r0, r1] =>
          if r1 = "standard".toList ∨ r1 = "shadow".toList ∨ r1 = "thinkertoy".toList then
            ({ opts with Text := r0, Banner := r1 }, none)
          else if opts.UseColor then
            ({ opts with Substring := r0, Text := r1 }, none)
          else (opts, some "invalid arguments")
        | [r0, r1, r2] =>
          if !opts.UseColor then (opts, some "too many arguments")
          else ({ opts with Substring := r0, Text := r1, Banner := r2 }, none)
        | _ => (opts, some "invalid number of arguments")

/-- The map `colorCodes` of color.go. -/
def colorCodes : List (Str × Str) :=
  [("red".toList, "\x1b[31m".toList),
   ("green".toList, "\x1b[32m".toList),
   ("yellow".toList, "\x1b[33m".toList),
   ("blue".toList, "\x1b[34m".toList),
   ("magenta".toList, "\x1b[35m".toList),
   ("cyan".toList, "\x1b[36m".toList),
   ("white".toList, "\x1b[37m".toList),
   ("orange".toList, "\x1b[38;5;208m".toList),
   ("black".toList, "\x1b[30m".toList)]

/-- Go `strings.ToLower(s)` on valid UTF-8: every code point is replaced by
its image under the Unicode lower-case mapping `lower` (`unicode.ToLower`),
which the Go library provides and is taken as a parameter. -/
def ToLower (lower : Char → Char) (s : Str) : Str := s.map lower

/-- GetColorCode: lower the name and look it up; a missing key gives the
empty string and false. -/
def GetColorCode (lower : Char → Char) (colorName : Str) : Str × Bool :=
  let colorName := ToLower lower colorName
  match colorCodes.lookup colorName with
  | some code => (code, true)
  | none => ([], false)

/-- The restriction of `unicode.ToLower` to ASCII: A..Z go to a..z. -/
def asciiLower (c : Char) : Char := c.toLower

/-- A valid flag: `--color=` or `--output=` followed by a non-empty value. -/
def ValidFlag (f : Str) : Prop :=
  (∃ v : Str, v ≠ [] ∧ f = "--color=".toList ++ v) ∨
  (∃ v : Str, v ≠ [] ∧ f = "--output=".toList ++ v)

/-- The three banner names ParseColorArgs recognises. -/
def IsBannerName (y : Str) : Prop :=
  y = "standard".toList ∨ y = "shadow".toList ∨ y = "thinkertoy".toList

/-- Go `t[i:j]` with its bounds check: a panic, `none`, unless
`i ≤ j ≤ len(t)`. -/
def sliceChecked (t : List UInt8) (i j : Nat) : Option (List UInt8) :=
  if i ≤ j ∧ j ≤ t.length then some ((t.drop i).take (j - i)) else none

/-- The loop `for i := range text { result[i] = i }` with the bounds check of
`result[i]`. -/
def fillOffsetsChecked : List Char → Nat → List Int → Option (List Int)
  | [], _, result => some result
  | ch :: rest, i, result =>
    if i < result.length then
      fillOffsetsChecked rest (i + (String.utf8EncodeChar ch).length) (result.set i (i : Int))
    else none

/-- FindSubstringIndexes with the bounds checks of Go made explicit: `none`
stands for an index or slice out of range. -/
def FindSubstringIndexesChecked (text substring : Str) : Option (List Int) :=
  if substring = [] then
    fillOffsetsChecked text 0 (List.replicate (len text) 0)
  else
    let t := bytes text
    let s := bytes substring
    let bound : Int := (t.length : Int) - (s.length : Int)
    (List.range (bound + 1).toNat).foldlM (fun indexes i => do
      let window ← sliceChecked t i (i + s.length)
      if window = s then
        pure ((List.range s.length).foldl
          (fun indexes j => indexes ++ [((i + j : Nat) : Int)]) indexes)
      else pure indexes) []

/-- A glyph set in which every entry has exactly 8 rows. -/
def Banner.Valid (b : Banner) : Prop :=
  ∀ ch g, b.get ch = some g → g.length = charHeight

/-- A test banner in the style of `fakeBanner()` for U+00E9 and the letter a:
the rows are `e0..e7` and `a0..a7`. -/
def accentBanner : Banner :=
  [(Char.ofNat 233, (List.range charHeight).map (fun i => 'e' :: (toString i).toList)),
   ('a', (List.range charHeight).map (fun i => 'a' :: (toString i).toList))]

/-- What one run of `main` does: the branch it ends in, with the rendered
output (`none` for a panic while rendering) and the `--output` file name
(empty for the screen). -/
inductive MainOutcome where
  | usage : MainOutcome
  | invalidBanner (name : Str) : MainOutcome
  | loadFailed (path : Str) : MainOutcome
  | invalidColor (name : Str) : MainOutcome
  | warnedPlain (output : Option Str) (outputFile : Str) : MainOutcome
  | colored (output : Option Str) (outputFile : Str) : MainOutcome
  | plain (output : Option Str) (outputFile : Str) : MainOutcome
deriving DecidableEq

/-- The function `main` of main.go, given the lower-case mapping of the Go
library, the file system as a function from path to content, and `os.Args`.
Step 6c takes the warning branch when the substring is empty and there are
more than 3 arguments. -/
def main (lower : Char → Char) (readFile : Str → Option Str) (args : List Str) :
    MainOutcome :=
  match ParseColorArgs args with
  | (_, some _) => MainOutcome.usage
  | (opts, none) =>
    let bannerPath : Option Str :=
      if opts.Banner = "standard".toList then some "banners/standard.txt".toList
      else if opts.Banner = "shadow".toList then some "banners/shadow.txt".toList
      else if opts.Banner = "thinkertoy".toList then some "banners/thinkertoy.txt".toList
      else none
    match bannerPath with
    | none => MainOutcome.invalidBanner opts.Banner
    | some path =>
      match LoadBanner (readFile path) with
      | (_, some _) => MainOutcome.loadFailed path
      | (loaded, none) =>
        let banner : Banner := loaded.getD []
        if opts.UseColor then
          match GetColorCode lower opts.Color with
          | (_, false) => MainOutcome.invalidColor opts.Color
          | (colorCode, true) =>
            if opts.Substring = [] ∧ args.length > 3 then
              MainOutcome.warnedPlain (RenderInput opts.Text banner) opts.OutputFile
            else
              MainOutcome.colored (mainColored opts.Text opts.Substring banner colorCode)
                opts.OutputFile
        else
          MainOutcome.plain (RenderInput opts.Text banner) opts.OutputFile

/-- The arguments `prog --color=red Hello standard`: a colour flag, a text and
a banner name, no substring argument. -/
def argsColorTextBanner : List Str :=
  ["prog".toList, "--color=red".toList, "Hello".toList, "standard".toList]

/-- The arguments `prog --color=red Hello`: a colour flag and a text only. -/
def argsColorText : List Str :=
  ["prog".toList, "--color=red".toList, "Hello".toList]

/-! ## Lemmas and theorems -/

theorem dec_cons_cons (c d : Char) (rest : List Char) :
    dec (c :: d :: rest) =
      if c = backslash ∧ d = 'n' then LF :: dec rest else c :: dec (d :: rest) := by
  rw [dec]

theorem decodeLoop_eq (runes : List Char) :
    ∀ (n i : Nat) (out : List Char), runes.length - i = n →
      decodeLoop runes i out = out ++ dec (runes.drop i) := by
  intro n
  induction n using Nat.strong_induction_on with
  | _ n ih =>
    intro i out hn
    rw [decodeLoop]
    by_cases h : i < runes.length
    · rw [dif_pos h, List.drop_eq_getElem_cons h]
      by_cases h1 : i + 1 < runes.length
      · rw [List.drop_eq_getElem_cons h1, dec_cons_cons, List.getElem?_eq_getElem h1]
        by_cases hc : runes[i] = backslash ∧ runes[i + 1] = 'n'
        · have hc2 : runes[i] = backslash ∧ some runes[i + 1] = some 'n' := ⟨hc.1, by rw [hc.2]⟩
          rw [if_pos hc2, if_pos hc, ih (runes.length - (i + 1 + 1)) (by omega) _ _ rfl]
          simp
        · have hc2 : ¬ (runes[i] = backslash ∧ some runes[i + 1] = some 'n') := by
            intro hh; exact hc ⟨hh.1, Option.some.inj hh.2⟩
          rw [if_neg hc2, if_neg hc, ih (runes.length - (i + 1)) (by omega) _ _ rfl,
            List.drop_eq_getElem_cons h1]
          simp
      · have hnone : runes[i + 1]? = none := List.getElem?_eq_none (by omega)
        have hd : List.drop (i + 1) runes = [] := List.drop_eq_nil_of_le (by omega)
        rw [hnone, if_neg (by simp), ih (runes.length - (i + 1)) (by omega) _ _ rfl, hd]
        simp [dec]
    · rw [dif_neg h, List.drop_eq_nil_of_le (by omega)]
      simp [dec]

theorem decodeEscapedNewlines_eq_dec (s : Str) : decodeEscapedNewlines s = dec s := by
  unfold decodeEscapedNewlines
  rw [decodeLoop_eq s _ 0 [] rfl]
  simp

theorem lineStep_eq (b : Banner) (hb : b.TallEnough) (row : Nat) (hrow : row < charHeight)
    (builder : Str) (ch : Char) :
    lineStep b row builder ch = some (builder ++ glyphRow b row ch) := by
  unfold lineStep glyphRow
  cases hg : b.get ch with
  | none =>
    simp [List.getElem?_replicate, hrow]
  | some g =>
    have hlen : row < g.length := Nat.lt_of_lt_of_le hrow (hb ch g hg)
    simp [List.getElem?_eq_getElem hlen, List.getD_eq_getElem?_getD]

theorem foldlM_lineStep (b : Banner) (hb : b.TallEnough) (row : Nat) (hrow : row < charHeight)
    (s : Str) : ∀ builder : Str,
    s.foldlM (lineStep b row) builder = some (builder ++ s.flatMap (glyphRow b row)) := by
  induction s with
  | nil => intro builder; simp
  | cons ch rest ih =>
    intro builder
    rw [List.foldlM_cons, lineStep_eq b hb row hrow]
    simp [ih]

theorem RenderLine_unfold (s : Str) (b : Banner) :
    RenderLine s b = (List.range charHeight).foldlM (fun builder row => do
      let builder ← s.foldlM (lineStep b row) builder
      pure (builder ++ [LF])) [] := rfl

theorem foldlM_rows (b : Banner) (hb : b.TallEnough) (s : Str) (rows : List Nat)
    (hrows : ∀ row ∈ rows, row < charHeight) : ∀ builder : Str,
    rows.foldlM (fun builder row => do
      let builder ← s.foldlM (lineStep b row) builder
      pure (builder ++ [LF])) builder
      = some (builder ++ rows.flatMap (fun row => s.flatMap (glyphRow b row) ++ [LF])) := by
  induction rows with
  | nil => intro builder; simp
  | cons row rest ih =>
    intro builder
    have h1 := foldlM_lineStep b hb row (hrows row (List.mem_cons_self _ _)) s builder
    rw [List.foldlM_cons, h1]
    show List.foldlM _ (builder ++ s.flatMap (glyphRow b row) ++ [LF]) rest = _
    rw [ih (fun r hr => hrows r (List.mem_cons_of_mem _ hr))]
    simp

theorem RenderLine_eq_rowMajor (s : Str) (b : Banner) (hb : b.TallEnough) :
    RenderLine s b = some (rowMajor b s) := by
  rw [RenderLine_unfold, foldlM_rows b hb s _ (fun r hr => List.mem_range.mp hr)]
  simp [rowMajor]

/-- C1: on a glyph set whose entries have at least 8 rows, RenderLine returns
the row-major art: rows 0..7 in order, each the concatenation of that row of
every code point's glyph (nothing for a code point without entry) followed by
one line break. -/
theorem C1_RenderLine_row_major (s : Str) (b : Banner) (hb : b.TallEnough) :
    RenderLine s b = some (rowMajor b s) :=
  RenderLine_eq_rowMajor s b hb

theorem fakeBanner_tallEnough : fakeBanner.TallEnough := by
  intro ch g h
  simp only [Banner.get, fakeBanner, List.lookup_cons, List.lookup_nil] at h
  split at h
  · cases h; decide
  · split at h
    · cases h; decide
    · split at h
      · cases h; decide
      · cases h

/-- C1 at the test banner: RenderLine("AB") is `A0B0`, ..., `A7B7`, each row
ended by a line break. -/
theorem C1_RenderLine_AB :
    fakeBanner.TallEnough ∧
    RenderLine "AB".toList fakeBanner = some (rowMajor fakeBanner "AB".toList) ∧
    rowMajor fakeBanner "AB".toList
      = "A0B0\nA1B1\nA2B2\nA3B3\nA4B4\nA5B5\nA6B6\nA7B7\n".toList :=
  ⟨fakeBanner_tallEnough,
   C1_RenderLine_row_major "AB".toList fakeBanner fakeBanner_tallEnough, by decide⟩

/-- C6: decodeEscapedNewlines is the left-to-right scan that turns each
backslash followed by `n` into one line break and copies every other
character; the literal text of the test decodes to hello, LF, world, LF. -/
theorem C6_decode_is_scan :
    (∀ s : Str, decodeEscapedNewlines s = dec s) ∧
    decodeEscapedNewlines "hello\\nworld\\n".toList = "hello\nworld\n".toList :=
  ⟨decodeEscapedNewlines_eq_dec, by rw [decodeEscapedNewlines_eq_dec]; decide⟩

theorem getD_append_cons (pre : List Str) (part : Str) (rest : List Str) :
    (pre ++ part :: rest).getD pre.length [] = part := by
  rw [List.getD_eq_getElem?_getD, List.getElem?_append_right (Nat.le_refl _)]
  simp

theorem mapM_nil_opt {α β : Type} (f : α → Option β) : List.mapM f [] = some [] := by
  rw [List.mapM_nil]; rfl

theorem renderParts_spec (b : Banner) : ∀ (rest pre : List Str) (builder : Str),
    renderParts b (pre ++ rest).length rest pre.length builder
        (pre.any (fun p => decide (p ≠ [])))
      = ((List.range' pre.length rest.length).mapM (inputPiece b (pre ++ rest))).map
          (fun ys => builder ++ ys.flatten) := by
  intro rest
  induction rest with
  | nil =>
    intro pre builder
    rw [List.length_nil, List.range'_zero, mapM_nil_opt]
    simp [renderParts]
  | cons part rest ih =>
    intro pre builder
    have hassoc : pre ++ part :: rest = (pre ++ [part]) ++ rest := by simp
    have hlen : (pre ++ [part]).length = pre.length + 1 := by simp
    have hpiece : inputPiece b (pre ++ part :: rest) pre.length
        = if part ≠ [] then RenderLine part b
          else some (gapPiece (pre ++ part :: rest) pre.length) := by
      simp only [inputPiece, getD_append_cons]
    rw [List.length_cons, List.range'_succ, List.mapM_cons, hpiece]
    unfold renderParts
    by_cases hp : part ≠ []
    · simp only [hp, if_true, ne_eq, not_false_eq_true]
      cases hr : RenderLine part b with
      | none => simp
      | some blk =>
        have hany : (pre ++ [part]).any (fun p => decide (p ≠ [])) = true := by
          simp [hp]
        have := ih (pre ++ [part]) (builder ++ blk)
        rw [hany, hlen, ← hassoc] at this
        simp only [Option.some_bind, Option.bind_eq_bind]
        rw [this]
        cases (List.range' (pre.length + 1) rest.length).mapM
          (inputPiece b (pre ++ part :: rest)) <;> simp
    · have hp2 : part = [] := by simpa using hp
      subst hp2
      have hany : (pre ++ [[]]).any (fun p : Str => decide (p ≠ []))
          = pre.any (fun p => decide (p ≠ [])) := by simp
      have hih := fun bld => ih (pre ++ [[]]) bld
      simp only [hany, hlen, ← hassoc] at hih
      have htake : List.take pre.length (pre ++ [] :: rest) = pre := by simp
      simp only [ne_eq, not_true_eq_false, if_false, gapPiece, htake]
      cases rest with
      | nil =>
        have hlast : ((pre.length : Int) = ((pre ++ [[]]).length : Int) - 1) := by
          simp
        simp only [hlast, decide_True, Bool.not_true, Bool.false_eq_true, if_false]
        rw [List.length_nil, List.range'_zero, mapM_nil_opt]
        cases hh : pre.any (fun p => decide (p ≠ [])) <;>
          simp [renderParts]
      | cons q rest2 =>
        have hnl : ¬ ((pre.length : Int) = ((pre ++ [] :: q :: rest2).length : Int) - 1) := by
          simp; omega
        simp only [hnl, decide_False, Bool.not_false, if_true]
        rw [hih]
        cases (List.range' (pre.length + 1) (q :: rest2).length).mapM
          (inputPiece b (pre ++ [] :: q :: rest2)) <;> simp

theorem mem_of_splitLF_ne (s : Str) (h : LF ∈ s) : s ≠ [] := by
  intro hs; subst hs; simp at h

theorem RenderInput_multi (raw : Str) (b : Banner) (h : LF ∈ decodeEscapedNewlines raw) :
    RenderInput raw b = inputSpec b (splitLF (decodeEscapedNewlines raw)) := by
  have hne := mem_of_splitLF_ne _ h
  unfold RenderInput inputSpec
  simp only [hne, if_false, h, not_true_eq_false]
  have := renderParts_spec b (splitLF (decodeEscapedNewlines raw)) [] []
  simp only [List.nil_append, List.length_nil, List.any_nil] at this
  rw [this, List.range_eq_range']

theorem mapM_eq_some_map {α β : Type} (f : α → Option β) (g : α → β) :
    ∀ l : List α, (∀ x ∈ l, f x = some (g x)) → l.mapM f = some (l.map g) := by
  intro l
  induction l with
  | nil => intro _; exact mapM_nil_opt f
  | cons x xs ih =>
    intro h
    rw [List.mapM_cons, h x (List.mem_cons_self _ _),
      ih (fun y hy => h y (List.mem_cons_of_mem _ hy))]
    rfl

theorem inputSpec_tall (b : Banner) (hb : b.TallEnough) (parts : List Str) :
    inputSpec b parts = some ((List.range parts.length).flatMap (inputPieceArt b parts)) := by
  unfold inputSpec
  rw [mapM_eq_some_map (inputPiece b parts) (inputPieceArt b parts)]
  · simp [List.flatMap, List.flatten]
  · intro i _
    unfold inputPiece inputPieceArt
    split
    · exact RenderLine_eq_rowMajor _ b hb
    · rfl

/-- C2: when the decoded text contains a line break, RenderInput returns the
concatenation over the segments p_0..p_{n-1} of the split of: RenderLine(p_i)
for a non-empty segment, one bare line break for an empty segment that is not
the last, one bare line break for an empty last segment when an earlier
segment is non-empty, nothing otherwise. On a glyph set with tall enough
entries the result is returned and each block is the row-major art. -/
theorem C2_RenderInput_segments (raw : Str) (b : Banner)
    (h : LF ∈ decodeEscapedNewlines raw) :
    RenderInput raw b = inputSpec b (splitLF (decodeEscapedNewlines raw)) ∧
    (b.TallEnough → RenderInput raw b =
      some ((List.range (splitLF (decodeEscapedNewlines raw)).length).flatMap
        (inputPieceArt b (splitLF (decodeEscapedNewlines raw))))) := by
  refine ⟨RenderInput_multi raw b h, fun hb => ?_⟩
  rw [RenderInput_multi raw b h, inputSpec_tall b hb]

theorem decode_A_B : decodeEscapedNewlines "A\\nB".toList = "A\nB".toList := by
  rw [decodeEscapedNewlines_eq_dec]; decide

/-- C2 at the test input: A, backslash, n, B renders as the 8 rows of A
immediately followed by the 8 rows of B. -/
theorem C2_RenderInput_A_B :
    LF ∈ decodeEscapedNewlines "A\\nB".toList ∧
    RenderInput "A\\nB".toList fakeBanner =
      some ("A0\nA1\nA2\nA3\nA4\nA5\nA6\nA7\n".toList ++ "B0\nB1\nB2\nB3\nB4\nB5\nB6\nB7\n".toList) := by
  have h : LF ∈ decodeEscapedNewlines "A\\nB".toList := by rw [decode_A_B]; decide
  refine ⟨h, ?_⟩
  rw [(C2_RenderInput_segments "A\\nB".toList fakeBanner h).1, decode_A_B]
  decide

theorem toNat_ofNat_small (n : Nat) (h : n < 0xd800) : (Char.ofNat n).toNat = n := by
  unfold Char.ofNat
  rw [dif_pos (Or.inl h)]
  rfl

theorem loadLoop_ok (lines : List Str) : ∀ (codes : List Nat) (banner : Banner),
    (∀ c ∈ codes, (c - firstChar) * blockSize + 1 + charHeight ≤ lines.length) →
    loadLoop lines codes banner
      = (some (codes.foldl (fun bn c => bn.set (Char.ofNat c) (glyphAt lines c)) banner), none) := by
  intro codes
  induction codes with
  | nil => intro banner _; rfl
  | cons c rest ih =>
    intro banner h
    have hc := h c (List.mem_cons_self _ _)
    unfold loadLoop
    simp only [gt_iff_lt, Nat.not_lt.mpr hc, if_false, List.foldl_cons]
    rw [ih _ (fun d hd => h d (List.mem_cons_of_mem _ hd))]
    simp [glyphAt]

theorem loadLoop_fail (lines : List Str) : ∀ (codes : List Nat) (banner : Banner),
    (∃ c ∈ codes, lines.length < (c - firstChar) * blockSize + 1 + charHeight) →
    ∃ c ∈ codes, loadLoop lines codes banner
      = (none, some (LoadError.notEnoughLines (Char.ofNat c))) := by
  intro codes
  induction codes with
  | nil => intro banner h; obtain ⟨c, hc, _⟩ := h; cases hc
  | cons c rest ih =>
    intro banner h
    unfold loadLoop
    by_cases hc : lines.length < (c - firstChar) * blockSize + 1 + charHeight
    · exact ⟨c, List.mem_cons_self _ _, by simp [hc]⟩
    · have hrest : ∃ d ∈ rest, lines.length < (d - firstChar) * blockSize + 1 + charHeight := by
        obtain ⟨d, hd, hlt⟩ := h
        rcases List.mem_cons.mp hd with rfl | hd2
        · exact absurd hlt hc
        · exact ⟨d, hd2, hlt⟩
      obtain ⟨d, hd, heq⟩ := ih (banner.set (Char.ofNat c) (glyphAt lines c)) hrest
      refine ⟨d, List.mem_cons_of_mem _ hd, ?_⟩
      simp only [gt_iff_lt, hc, if_false]
      simpa [glyphAt] using heq

theorem set_fresh (b : Banner) (k : Char) (v : List Str) (h : ∀ e ∈ b, e.1 ≠ k) :
    b.set k v = (k, v) :: b := by
  unfold Banner.set
  congr 1
  rw [List.filter_eq_self]
  intro e he
  simpa using h e he

theorem foldl_set_fresh (f : Nat → List Str) : ∀ (codes : List Nat) (banner : Banner),
    (codes.map Char.ofNat).Nodup →
    (∀ c ∈ codes, ∀ e ∈ banner, e.1 ≠ Char.ofNat c) →
    codes.foldl (fun bn c => bn.set (Char.ofNat c) (f c)) banner
      = (codes.map (fun c => (Char.ofNat c, f c))).reverse ++ banner := by
  intro codes
  induction codes with
  | nil => intro banner _ _; rfl
  | cons c rest ih =>
    intro banner hnd hdis
    rw [List.map_cons, List.nodup_cons] at hnd
    rw [List.foldl_cons, set_fresh banner _ _ (hdis c (List.mem_cons_self _ _)), ih _ hnd.2]
    · simp
    · intro d hd e he
      rcases List.mem_cons.mp he with rfl | he2
      · intro heq
        exact hnd.1 (by rw [← show Char.ofNat d = Char.ofNat c from heq.symm]; exact List.mem_map_of_mem _ hd)
      · exact hdis d (List.mem_cons_of_mem _ hd) e he2

theorem bannerCodes_mem (c : Nat) : c ∈ bannerCodes ↔ 32 ≤ c ∧ c ≤ 126 := by
  unfold bannerCodes
  rw [List.mem_range'_1]
  simp only [firstChar, lastChar]
  omega

theorem bannerCodes_nodup : (bannerCodes.map Char.ofNat).Nodup := by
  rw [List.nodup_map_iff_inj_on]
  · intro x hx y hy hxy
    rw [bannerCodes_mem] at hx hy
    have h1 := toNat_ofNat_small x (by omega)
    have h2 := toNat_ofNat_small y (by omega)
    rw [← h1, ← h2, hxy]
  · exact List.nodup_range' _ _

theorem LoadBanner_ok (data : Str) (h : 855 ≤ (bannerLines data).length) :
    LoadBanner (some data) = (some (bannerOf (bannerLines data)), none) := by
  show loadLoop (bannerLines data) bannerCodes [] = _
  rw [loadLoop_ok, foldl_set_fresh _ _ _ bannerCodes_nodup]
  · simp [bannerOf]
  · intro c _ e he; cases he
  · intro c hc
    rw [bannerCodes_mem] at hc
    simp only [firstChar, blockSize, charHeight]
    omega

theorem LoadBanner_fail (data : Str) (h : (bannerLines data).length < 855) :
    ∃ c, LoadBanner (some data) = (none, some (LoadError.notEnoughLines c)) := by
  obtain ⟨c, _, hc⟩ := loadLoop_fail (bannerLines data) bannerCodes []
    ⟨126, (bannerCodes_mem 126).mpr (by omega), by
      simp only [firstChar, blockSize, charHeight]; omega⟩
  exact ⟨Char.ofNat c, hc⟩

theorem lookup_of_mem_nodup : ∀ (l : List (Char × List Str)), (l.map Prod.fst).Nodup →
    ∀ (k : Char) (v : List Str), (k, v) ∈ l → l.lookup k = some v := by
  intro l
  induction l with
  | nil => intro _ k v h; cases h
  | cons e rest ih =>
    intro hnd k v h
    obtain ⟨k1, v1⟩ := e
    rw [List.map_cons, List.nodup_cons] at hnd
    rw [List.lookup_cons]
    rcases List.mem_cons.mp h with heq | hrest
    · cases heq; simp
    · have hne : k ≠ k1 := by
        intro hk; subst hk
        exact hnd.1 (List.mem_map.mpr ⟨(k, v), hrest, rfl⟩)
      have hb : (k == k1) = false := by simpa using hne
      rw [hb]
      exact ih hnd.2 k v hrest

theorem bannerOf_keys (lines : List Str) :
    (bannerOf lines).map Prod.fst = (bannerCodes.map Char.ofNat).reverse := by
  simp [bannerOf, List.map_reverse, Function.comp_def]

theorem bannerOf_nodup (lines : List Str) : ((bannerOf lines).map Prod.fst).Nodup := by
  rw [bannerOf_keys, List.nodup_reverse]
  exact bannerCodes_nodup

theorem bannerOf_length (lines : List Str) : (bannerOf lines).length = 95 := by
  simp [bannerOf, bannerCodes, firstChar, lastChar]

theorem bannerOf_get (lines : List Str) (c : Nat) (hc : 32 ≤ c ∧ c ≤ 126) :
    (bannerOf lines).get (Char.ofNat c) = some (glyphAt lines c) := by
  apply lookup_of_mem_nodup _ (bannerOf_nodup lines)
  unfold bannerOf
  rw [List.mem_reverse, List.mem_map]
  exact ⟨c, (bannerCodes_mem c).mpr hc, rfl⟩

theorem bannerOf_get_some (lines : List Str) (ch : Char) (g : List Str)
    (h : (bannerOf lines).get ch = some g) :
    (32 ≤ ch.toNat ∧ ch.toNat ≤ 126) ∧ g = glyphAt lines ch.toNat := by
  have hs : ((bannerOf lines).get ch).isSome := by rw [h]; rfl
  unfold Banner.get at hs
  rw [List.lookup_isSome_iff] at hs
  obtain ⟨p, hp, hk⟩ := hs
  have hk2 : ch = p.1 := by simpa using hk
  unfold bannerOf at hp
  rw [List.mem_reverse, List.mem_map] at hp
  obtain ⟨c, hc, rfl⟩ := hp
  rw [bannerCodes_mem] at hc
  have hn : ch.toNat = c := by rw [hk2]; exact toNat_ofNat_small c (by omega)
  have hch : ch = Char.ofNat c := hk2
  refine ⟨by omega, ?_⟩
  rw [hch, bannerOf_get lines c hc] at h
  rw [hn]
  exact (Option.some.inj h).symm

theorem glyphAt_length (lines : List Str) (c : Nat) (hc : 32 ≤ c ∧ c ≤ 126)
    (h : 855 ≤ lines.length) : (glyphAt lines c).length = 8 := by
  simp only [glyphAt, List.length_take, List.length_drop, firstChar, blockSize, charHeight]
  omega

theorem glyphAt_rows (lines : List Str) (c : Nat) (hc : 32 ≤ c ∧ c ≤ 126)
    (h : 855 ≤ lines.length) :
    glyphAt lines c = (List.range 8).map (fun r => lines.getD (9 * (c - 32) + 1 + r) []) := by
  apply List.ext_getElem
  · rw [glyphAt_length lines c hc h]; simp
  · intro i h1 h2
    have hi : i < 8 := by rw [glyphAt_length lines c hc h] at h1; exact h1
    have hlt : 9 * (c - 32) + 1 + i < lines.length := by omega
    simp only [glyphAt, firstChar, blockSize, charHeight, List.getElem_take, List.getElem_drop,
      List.getElem_map, List.getElem_range, List.getD_eq_getElem?_getD,
      List.getElem?_eq_getElem hlt, Option.getD_some]
    congr 1
    omega

theorem LoadBanner_error_iff (data : Str) :
    (LoadBanner (some data)).2.isSome ↔ (bannerLines data).length < 855 := by
  constructor
  · intro h
    by_contra hge
    rw [LoadBanner_ok data (by omega)] at h
    cases h
  · intro h
    obtain ⟨c, hc⟩ := LoadBanner_fail data h
    rw [hc]; rfl

theorem LoadBanner_success_lines (data : Str) (banner : Banner)
    (h : LoadBanner (some data) = (some banner, none)) :
    855 ≤ (bannerLines data).length ∧ banner = bannerOf (bannerLines data) := by
  have hge : 855 ≤ (bannerLines data).length := by
    by_contra hlt
    have := (LoadBanner_error_iff data).mpr (by omega)
    rw [h] at this
    cases this
  refine ⟨hge, ?_⟩
  rw [LoadBanner_ok data hge] at h
  exact (Option.some.inj (congrArg Prod.fst h)).symm

/-- C3: a glyph file whose normalized content splits into exactly 95*9 = 855
lines loads without error; the mapping has 95 entries with distinct keys, its
keys are exactly the code points 0x20..0x7E and every entry has 8 rows. -/
theorem C3_LoadBanner_855 (data : Str) (h : (bannerLines data).length = 95 * 9) :
    ∃ banner : Banner, LoadBanner (some data) = (some banner, none) ∧
      banner.length = 95 ∧ (banner.map Prod.fst).Nodup ∧
      (∀ ch : Char, (banner.get ch).isSome ↔ 0x20 ≤ ch.toNat ∧ ch.toNat ≤ 0x7E) ∧
      (∀ ch g, banner.get ch = some g → g.length = 8) := by
  have hge : 855 ≤ (bannerLines data).length := by omega
  refine ⟨bannerOf (bannerLines data), LoadBanner_ok data hge, bannerOf_length _,
    bannerOf_nodup _, ?_, ?_⟩
  · intro ch
    constructor
    · intro hs
      obtain ⟨g, hg⟩ := Option.isSome_iff_exists.mp hs
      exact (bannerOf_get_some _ ch g hg).1
    · intro hr
      have := bannerOf_get (bannerLines data) ch.toNat hr
      rw [Char.ofNat_toNat] at this
      rw [this]; rfl
  · intro ch g hg
    obtain ⟨hr, rfl⟩ := bannerOf_get_some _ ch g hg
    exact glyphAt_length _ _ hr hge

set_option maxRecDepth 100000 in
theorem bannerLines_replicate : (bannerLines (List.replicate 854 LF)).length = 95 * 9 := by
  decide

/-- C3 at a glyph file of 855 empty lines: the load succeeds with 95 entries
of 8 rows under the keys 0x20..0x7E. -/
theorem C3_LoadBanner_855_witness :
    (bannerLines (List.replicate 854 LF)).length = 95 * 9 ∧
    ∃ banner : Banner, LoadBanner (some (List.replicate 854 LF)) = (some banner, none) ∧
      banner.length = 95 ∧ (banner.map Prod.fst).Nodup ∧
      (∀ ch : Char, (banner.get ch).isSome ↔ 0x20 ≤ ch.toNat ∧ ch.toNat ≤ 0x7E) ∧
      (∀ ch g, banner.get ch = some g → g.length = 8) :=
  ⟨bannerLines_replicate, C3_LoadBanner_855 _ bannerLines_replicate⟩

/-- C4: for a glyph file that was read, LoadBanner returns an error exactly
when the normalized content split on the line break has fewer than 855 lines,
and an error always comes with a nil Banner; without error a Banner is
returned. -/
theorem C4_LoadBanner_fails_iff (data : Str) :
    ((LoadBanner (some data)).2.isSome ↔ (bannerLines data).length < 95 * 9) ∧
    ((LoadBanner (some data)).2.isSome → (LoadBanner (some data)).1 = none) ∧
    ((LoadBanner (some data)).2 = none → (LoadBanner (some data)).1.isSome) := by
  refine ⟨LoadBanner_error_iff data, ?_, ?_⟩
  · intro h
    obtain ⟨c, hc⟩ := LoadBanner_fail data ((LoadBanner_error_iff data).mp h)
    rw [hc]
  · intro h
    have hge : 855 ≤ (bannerLines data).length := by
      by_contra hlt
      have := (LoadBanner_error_iff data).mpr (by omega)
      rw [h] at this
      cases this
    rw [LoadBanner_ok data hge]; rfl

/-- C4 at a glyph file of 854 lines: the load fails on the last character and
returns no Banner. -/
theorem C4_LoadBanner_854_lines :
    (bannerLines (List.replicate 853 LF)).length < 95 * 9 ∧
    (LoadBanner (some (List.replicate 853 LF))).2.isSome ∧
    (LoadBanner (some (List.replicate 853 LF))).1 = none := by
  have hlen : (bannerLines (List.replicate 853 LF)).length < 95 * 9 := by
    set_option maxRecDepth 100000 in decide
  have h := C4_LoadBanner_fails_iff (List.replicate 853 LF)
  exact ⟨hlen, h.1.mpr hlen, h.2.1 (h.1.mpr hlen)⟩

/-- C5: after a successful load the glyph of code point `c` in 0x20..0x7E is
the 8 consecutive lines at indices 9*(c-0x20)+1 .. 9*(c-0x20)+8 of the
normalized lines (all of them present); and any other content with at least
855 lines that has the same lines at the indices below 855 that are not a
multiple of 9 loads to the same mapping. -/
theorem C5_LoadBanner_glyph_rows (data : Str) (banner : Banner)
    (h : LoadBanner (some data) = (some banner, none)) (c : Nat)
    (hc : 0x20 ≤ c ∧ c ≤ 0x7E) :
    banner.get (Char.ofNat c)
      = some ((List.range 8).map
          (fun r => (bannerLines data).getD (9 * (c - 0x20) + 1 + r) [])) ∧
    (∀ r, r < 8 → 9 * (c - 0x20) + 1 + r < (bannerLines data).length) ∧
    (∀ other : Str, 95 * 9 ≤ (bannerLines other).length →
      (∀ i, i < 95 * 9 → i % 9 ≠ 0 → (bannerLines other)[i]? = (bannerLines data)[i]?) →
      LoadBanner (some other) = (some banner, none)) := by
  obtain ⟨hge, rfl⟩ := LoadBanner_success_lines data banner h
  refine ⟨?_, ?_, ?_⟩
  · rw [bannerOf_get _ c hc, glyphAt_rows _ c hc hge]
  · intro r hr; omega
  · intro other hother hagree
    rw [LoadBanner_ok other (by omega)]
    congr 2
    unfold bannerOf
    congr 1
    apply List.map_congr_left
    intro d hd
    rw [bannerCodes_mem] at hd
    rw [glyphAt_rows _ d hd hge, glyphAt_rows _ d hd (by omega)]
    congr 1
    apply List.map_congr_left
    intro r hr
    rw [List.mem_range] at hr
    rw [List.getD_eq_getElem?_getD, List.getD_eq_getElem?_getD,
      hagree (9 * (d - 32) + 1 + r) (by omega) (by omega)]

set_option maxRecDepth 100000 in
theorem blockFile_loads :
    LoadBanner (some blockFile) = (some (bannerOf (bannerLines blockFile)), none) :=
  LoadBanner_ok blockFile (by decide)

/-- C5 at a file whose art rows are all `x`: the glyph of `A` is the lines
298..305, eight rows `x`. -/
theorem C5_LoadBanner_glyph_rows_witness :
    LoadBanner (some blockFile) = (some (bannerOf (bannerLines blockFile)), none) ∧
    (bannerOf (bannerLines blockFile)).get (Char.ofNat 65)
      = some ((List.range 8).map
          (fun r => (bannerLines blockFile).getD (9 * (65 - 0x20) + 1 + r) [])) :=
  ⟨blockFile_loads,
   (C5_LoadBanner_glyph_rows blockFile _ blockFile_loads 65 (by decide)).1⟩

theorem ContainsIndex_eq (indexes : List Int) (target : Int) :
    ContainsIndex indexes target = decide (target ∈ indexes) := by
  induction indexes with
  | nil => simp [ContainsIndex]
  | cons idx rest ih =>
    unfold ContainsIndex
    by_cases h : idx = target
    · simp [h]
    · have h2 : ¬ target = idx := fun e => h e.symm
      simp [h, h2, ih]

theorem glyph_index (b : Banner) (hb : b.TallEnough) (row : Nat) (hrow : row < charHeight)
    (ch : Char) :
    (match b.get ch with
      | some g => g
      | none => List.replicate charHeight [])[row]? = some (glyphRow b row ch) := by
  unfold glyphRow
  cases hg : b.get ch with
  | none => simp [List.getElem?_replicate, hrow]
  | some g =>
    have hlen : row < g.length := Nat.lt_of_lt_of_le hrow (hb ch g hg)
    simp [List.getElem?_eq_getElem hlen, List.getD_eq_getElem?_getD]

theorem colorRowLoop_eq (b : Banner) (hb : b.TallEnough) (colorCode : Str)
    (indexes : List Int) (row : Nat) (hrow : row < charHeight) :
    ∀ (chars : List Char) (k : Nat) (builder : Str),
    colorRowLoop b colorCode indexes row chars k builder
      = some (builder ++ (chars.enumFrom k).flatMap
          (fun p => coloredCell b colorCode (fun j => decide ((j : Int) ∈ indexes)) row p.1 p.2)) := by
  intro chars
  induction chars with
  | nil => intro k builder; simp [colorRowLoop]
  | cons ch rest ih =>
    intro k builder
    unfold colorRowLoop
    simp only [ContainsIndex_eq, glyph_index b hb row hrow ch, Option.bind_eq_bind,
      Option.some_bind, List.enumFrom_cons, List.flatMap_cons, coloredCell]
    by_cases hk : (k : Int) ∈ indexes
    · simp [hk, ih, coloredCell]
    · simp [hk, ih, coloredCell]

theorem renderSingleLineWithColor_eq (input : Str) (b : Banner) (hb : b.TallEnough)
    (colorCode : Str) (indexes : List Int) :
    renderSingleLineWithColor input b colorCode indexes
      = some (coloredArt b colorCode (fun j => decide ((j : Int) ∈ indexes)) input) := by
  have key : ∀ (rows : List Nat), (∀ row ∈ rows, row < charHeight) → ∀ builder : Str,
      rows.foldlM (fun builder row => do
        let builder ← colorRowLoop b colorCode indexes row input 0 builder
        pure (builder ++ [LF])) builder
      = some (builder ++ rows.flatMap (fun row =>
          input.enum.flatMap
            (fun p => coloredCell b colorCode (fun j => decide ((j : Int) ∈ indexes)) row p.1 p.2)
            ++ [LF])) := by
    intro rows
    induction rows with
    | nil => intro _ builder; simp
    | cons row rest ih =>
      intro hrows builder
      rw [List.foldlM_cons, colorRowLoop_eq b hb colorCode indexes row
        (hrows row (List.mem_cons_self _ _))]
      show List.foldlM _ (builder ++ _ ++ [LF]) rest = _
      rw [ih (fun r hr => hrows r (List.mem_cons_of_mem _ hr))]
      simp [List.enum]
  have := key (List.range charHeight) (fun r hr => List.mem_range.mp hr) []
  simpa [coloredArt] using this

/-- C7: on a glyph set with tall enough entries and a text whose decoded form
is non-empty and has no line break, RenderWithColor returns 8 rows in which
the character at position `k` contributes colour code, glyph row, reset code
when `k` is in the position list and the bare glyph row otherwise, on every
row. -/
theorem C7_RenderWithColor_single_line (raw : Str) (b : Banner) (colorCode : Str)
    (indexes : List Int) (hb : b.TallEnough)
    (hne : decodeEscapedNewlines raw ≠ []) (hnl : LF ∉ decodeEscapedNewlines raw) :
    RenderWithColor raw b colorCode indexes
      = some (coloredArt b colorCode (fun k => decide ((k : Int) ∈ indexes))
          (decodeEscapedNewlines raw)) := by
  unfold RenderWithColor
  simp only [hne, hnl, if_false]
  exact renderSingleLineWithColor_eq _ b hb colorCode indexes

theorem decode_AB : decodeEscapedNewlines "AB".toList = "AB".toList := by
  rw [decodeEscapedNewlines_eq_dec]; decide

/-- C7 at the test banner: in AB with position list [1] the character B is
wrapped on each of the 8 rows and A is not. -/
theorem C7_RenderWithColor_AB :
    fakeBanner.TallEnough ∧ decodeEscapedNewlines "AB".toList ≠ [] ∧
    LF ∉ decodeEscapedNewlines "AB".toList ∧
    RenderWithColor "AB".toList fakeBanner "<".toList [1]
      = some ("A0<B0\x1b[0m\nA1<B1\x1b[0m\nA2<B2\x1b[0m\nA3<B3\x1b[0m\n".toList ++
          "A4<B4\x1b[0m\nA5<B5\x1b[0m\nA6<B6\x1b[0m\nA7<B7\x1b[0m\n".toList) := by
  have hne : decodeEscapedNewlines "AB".toList ≠ [] := by rw [decode_AB]; decide
  have hnl : LF ∉ decodeEscapedNewlines "AB".toList := by rw [decode_AB]; decide
  refine ⟨fakeBanner_tallEnough, hne, hnl, ?_⟩
  rw [C7_RenderWithColor_single_line _ _ _ _ fakeBanner_tallEnough hne hnl, decode_AB]
  decide

theorem utf8Size_ascii (c : Char) (h : c.toNat < 128) : c.utf8Size = 1 := by
  have hv : c.val ≤ 127 := by
    show c.val.toNat ≤ 127
    have : c.toNat = c.val.toNat := rfl
    omega
  simp [Char.utf8Size, hv]

theorem len_ascii (s : Str) (h : ∀ c ∈ s, c.toNat < 128) : len s = s.length := by
  induction s with
  | nil => rfl
  | cons c rest ih =>
    have h1 := utf8Size_ascii c (h c (List.mem_cons_self _ _))
    have h2 := ih (fun d hd => h d (List.mem_cons_of_mem _ hd))
    simp only [len, bytes, List.flatMap_cons, List.length_append,
      String.length_utf8EncodeChar, List.length_cons] at h2 ⊢
    omega

theorem splitLF_ne_nil (s : Str) : splitLF s ≠ [] := by
  induction s with
  | nil => simp [splitLF]
  | cons c rest ih =>
    unfold splitLF
    split
    · simp
    · split <;> simp

theorem splitLF_mem (s : Str) : ∀ p ∈ splitLF s, ∀ c ∈ p, c ∈ s := by
  induction s with
  | nil => intro p hp c hc; simp [splitLF] at hp; subst hp; cases hc
  | cons a rest ih =>
    intro p hp c hc
    unfold splitLF at hp
    split at hp
    · rcases List.mem_cons.mp hp with rfl | hp2
      · cases hc
      · exact List.mem_cons_of_mem _ (ih p hp2 c hc)
    · split at hp
      · rename_i heq; exact absurd heq (splitLF_ne_nil rest)
      · rename_i q qs heq
        rcases List.mem_cons.mp hp with rfl | hp2
        · rcases List.mem_cons.mp hc with rfl | hc2
          · exact List.mem_cons_self _ _
          · exact List.mem_cons_of_mem _ (ih q (by rw [heq]; exact List.mem_cons_self _ _) c hc2)
        · exact List.mem_cons_of_mem _
            (ih p (by rw [heq]; exact List.mem_cons_of_mem _ hp2) c hc)

theorem coloredRow_congr (b : Banner) (colorCode : Str) (f g : Nat → Bool) (row : Nat) :
    ∀ (chars : List Char) (k : Nat),
    (∀ j, k ≤ j → j < k + chars.length → f j = g j) →
    (chars.enumFrom k).flatMap (fun p => coloredCell b colorCode f row p.1 p.2)
      = (chars.enumFrom k).flatMap (fun p => coloredCell b colorCode g row p.1 p.2) := by
  intro chars
  induction chars with
  | nil => intro k _; rfl
  | cons ch rest ih =>
    intro k h
    rw [List.enumFrom_cons, List.flatMap_cons, List.flatMap_cons,
      ih (k + 1) (fun j h1 h2 => h j (by omega) (by simp only [List.length_cons]; omega))]
    simp only [coloredCell, h k (Nat.le_refl _) (by simp only [List.length_cons]; omega)]

theorem coloredArt_congr (b : Banner) (colorCode : Str) (f g : Nat → Bool)
    (chars : List Char) (h : ∀ j, j < chars.length → f j = g j) :
    coloredArt b colorCode f chars = coloredArt b colorCode g chars := by
  unfold coloredArt List.enum
  congr 1
  funext row
  rw [coloredRow_congr b colorCode f g row chars 0 (fun j _ h2 => h j (by omega))]

theorem mem_lineIndexes (indexes : List Int) (totalPos lineLen t : Int) :
    t ∈ lineIndexes indexes totalPos lineLen ↔
      (totalPos + t ∈ indexes ∧ 0 ≤ t ∧ t < lineLen) := by
  unfold lineIndexes
  rw [List.mem_filterMap]
  constructor
  · rintro ⟨idx, hidx, hsome⟩
    split at hsome
    · rename_i hcond
      have : idx - totalPos = t := Option.some.inj hsome
      have hidx2 : totalPos + t = idx := by omega
      exact ⟨by rw [hidx2]; exact hidx, by omega, by omega⟩
    · cases hsome
  · rintro ⟨hmem, h0, hlt⟩
    refine ⟨totalPos + t, hmem, ?_⟩
    rw [if_pos ⟨by omega, by omega⟩]
    congr 1
    omega

theorem colorParts_spec (b : Banner) (hb : b.TallEnough) (colorCode : Str)
    (indexes : List Int) : ∀ (rest pre : List Str) (builder : Str),
    (∀ p ∈ rest, ∀ c ∈ p, c.toNat < 128) →
    colorParts b colorCode indexes (pre ++ rest).length rest pre.length builder
        (pre.any (fun p => decide (p ≠ [])))
        (((pre.map (fun p => p.length + 1)).sum : Nat) : Int)
      = some (builder ++ (List.range' pre.length rest.length).flatMap
          (colorPieceArt b colorCode indexes (pre ++ rest))) := by
  intro rest
  induction rest with
  | nil => intro pre builder _; simp [colorParts]
  | cons line rest ih =>
    intro pre builder hascii
    have hassoc : pre ++ line :: rest = (pre ++ [line]) ++ rest := by simp
    have hlen : (pre ++ [line]).length = pre.length + 1 := by simp
    have htake : List.take pre.length (pre ++ line :: rest) = pre := by simp
    have hline := hascii line (List.mem_cons_self _ _)
    have hrest : ∀ p ∈ rest, ∀ c ∈ p, c.toNat < 128 :=
      fun p hp => hascii p (List.mem_cons_of_mem _ hp)
    have hpiece : colorPieceArt b colorCode indexes (pre ++ line :: rest) pre.length
        = if line ≠ [] then
            coloredArt b colorCode
              (fun k => decide ((((pre.map (fun p => p.length + 1)).sum + k : Nat) : Int)
                ∈ indexes)) line
          else gapPiece (pre ++ line :: rest) pre.length := by
      simp only [colorPieceArt, getD_append_cons, segOffset, htake]
    have hsum : (((pre ++ [line]).map (fun p => p.length + 1)).sum : Nat)
        = (pre.map (fun p => p.length + 1)).sum + (line.length + 1) := by simp
    rw [List.length_cons, List.range'_succ, List.flatMap_cons, hpiece]
    unfold colorParts
    by_cases hp : line ≠ []
    · have hany : (pre ++ [line]).any (fun p => decide (p ≠ [])) = true := by simp [hp]
      have hih := ih (pre ++ [line]) (builder ++ coloredArt b colorCode
        (fun k => decide ((((pre.map (fun p => p.length + 1)).sum + k : Nat) : Int)
                ∈ indexes)) line) hrest
      rw [hany, hlen, ← hassoc, hsum] at hih
      simp only [hp, if_true, ne_eq, not_false_eq_true, renderSingleLineWithColor_eq _ b hb,
        Option.bind_eq_bind, Option.some_bind, len_ascii line hline]
      have hart : coloredArt b colorCode
          (fun j => decide ((j : Int) ∈ lineIndexes indexes
            (((pre.map (fun p => p.length + 1)).sum : Nat) : Int) (line.length : Int))) line
          = coloredArt b colorCode
              (fun k => decide ((((pre.map (fun p => p.length + 1)).sum + k : Nat) : Int)
                ∈ indexes)) line := by
        apply coloredArt_congr
        intro j hj
        congr 1
        rw [mem_lineIndexes]
        simp only [eq_iff_iff]
        constructor
        · intro h; simpa using h.1
        · intro h; exact ⟨by simpa using h, by omega, by omega⟩
      rw [hart]
      have hcast : ((((pre.map (fun p => p.length + 1)).sum + (line.length + 1) : Nat)) : Int)
          = (((pre.map (fun p => p.length + 1)).sum : Nat) : Int) + ((line.length : Int) + 1) := by
        push_cast; ring
      rw [hcast] at hih
      rw [hih]
      simp
    · have hp2 : line = [] := by simpa using hp
      subst hp2
      have hany : (pre ++ [[]]).any (fun p : Str => decide (p ≠ []))
          = pre.any (fun p => decide (p ≠ [])) := by simp
      have hih := fun bld => ih (pre ++ [[]]) bld hrest
      have hcast : ((((pre.map (fun p => p.length + 1)).sum + (([] : Str).length + 1) : Nat)) : Int)
          = (((pre.map (fun p => p.length + 1)).sum : Nat) : Int) + 1 := by
        push_cast; simp
      simp only [hany, hlen, ← hassoc, hsum, hcast] at hih
      simp only [ne_eq, not_true_eq_false, if_false, gapPiece, htake]
      cases rest with
      | nil =>
        have hlast : ((pre.length : Int) = ((pre ++ [[]]).length : Int) - 1) := by simp
        simp only [hlast, decide_True, Bool.not_true, Bool.false_eq_true, if_false]
        cases hh : pre.any (fun p => decide (p ≠ [])) <;> simp [colorParts]
      | cons q rest2 =>
        have hnl : ¬ ((pre.length : Int) = ((pre ++ [] :: q :: rest2).length : Int) - 1) := by
          simp; omega
        simp only [hnl, decide_False, Bool.not_false, if_true]
        rw [hih]
        simp

theorem tallEnough_of_entries (b : Banner) (h : ∀ e ∈ b, charHeight ≤ e.2.length) :
    b.TallEnough := by
  intro ch g hg
  unfold Banner.get at hg
  rw [List.lookup_eq_some_iff] at hg
  obtain ⟨l1, l2, rfl, _⟩ := hg
  exact h (ch, g) (by simp)

theorem letterBanner_tallEnough : letterBanner.TallEnough :=
  tallEnough_of_entries _ (by decide)

theorem RenderWithColor_multi (raw : Str) (b : Banner) (colorCode : Str) (indexes : List Int)
    (hb : b.TallEnough) (hascii : ∀ c ∈ decodeEscapedNewlines raw, c.toNat < 128)
    (hnl : LF ∈ decodeEscapedNewlines raw) :
    RenderWithColor raw b colorCode indexes
      = some ((List.range (splitLF (decodeEscapedNewlines raw)).length).flatMap
          (colorPieceArt b colorCode indexes (splitLF (decodeEscapedNewlines raw)))) := by
  have hne := mem_of_splitLF_ne _ hnl
  unfold RenderWithColor renderMultiLineWithColor
  simp only [hne, hnl, if_false, if_true]
  have := colorParts_spec b hb colorCode indexes (splitLF (decodeEscapedNewlines raw)) [] []
    (fun p hp c hc => hascii c (splitLF_mem _ p hp c hc))
  simp only [List.nil_append, List.length_nil, List.any_nil, List.map_nil, List.sum_nil,
    Nat.cast_zero] at this
  rw [this, List.range_eq_range']

/-- C8: for a decoded multi-line text of ASCII characters with segments
p_0..p_{n-1}, RenderWithColor returns the concatenation of the segments'
contributions in which character `k` of a non-empty segment p_i is coloured
iff off_i + k is in the global position list, off_i being the sum over j < i
of length(p_j) + 1; empty segments follow the blank-line rule. -/
theorem C8_RenderWithColor_rebases (raw : Str) (b : Banner) (colorCode : Str)
    (indexes : List Int) (hb : b.TallEnough)
    (hascii : ∀ c ∈ decodeEscapedNewlines raw, c.toNat < 128)
    (hnl : LF ∈ decodeEscapedNewlines raw) :
    RenderWithColor raw b colorCode indexes
      = some ((List.range (splitLF (decodeEscapedNewlines raw)).length).flatMap
          (colorPieceArt b colorCode indexes (splitLF (decodeEscapedNewlines raw)))) :=
  RenderWithColor_multi raw b colorCode indexes hb hascii hnl

theorem decode_AB_CD : decodeEscapedNewlines "AB\\nCD".toList = "AB\nCD".toList := by
  rw [decodeEscapedNewlines_eq_dec]; decide

/-- C8 at the text AB, line break, CD with the global position list [3]: the
first character of the second block, C, is coloured and nothing else. -/
theorem C8_RenderWithColor_AB_CD :
    letterBanner.TallEnough ∧
    (∀ c ∈ decodeEscapedNewlines "AB\\nCD".toList, c.toNat < 128) ∧
    LF ∈ decodeEscapedNewlines "AB\\nCD".toList ∧
    RenderWithColor "AB\\nCD".toList letterBanner "<".toList [3]
      = some ("A0B0\nA1B1\nA2B2\nA3B3\nA4B4\nA5B5\nA6B6\nA7B7\n".toList ++
          "<C0\x1b[0mD0\n<C1\x1b[0mD1\n<C2\x1b[0mD2\n<C3\x1b[0mD3\n".toList ++
          "<C4\x1b[0mD4\n<C5\x1b[0mD5\n<C6\x1b[0mD6\n<C7\x1b[0mD7\n".toList) := by
  have hascii : ∀ c ∈ decodeEscapedNewlines "AB\\nCD".toList, c.toNat < 128 := by
    rw [decode_AB_CD]; decide
  have hnl : LF ∈ decodeEscapedNewlines "AB\\nCD".toList := by rw [decode_AB_CD]; decide
  refine ⟨letterBanner_tallEnough, hascii, hnl, ?_⟩
  rw [C8_RenderWithColor_rebases _ _ _ _ letterBanner_tallEnough hascii hnl, decode_AB_CD]
  decide

/-- C9, the program at the input of the claim: with the raw text A, B,
backslash, n, C, D and the substring C, the positions are taken on the raw
text (C is at offset 4 there), so the output colours D, the second character
of the second block, and leaves C uncoloured; the positions of C in the
decoded text would be [3]. -/
theorem C9_mainColored_colors_D :
    FindSubstringIndexes "AB\\nCD".toList "C".toList = [4] ∧
    FindSubstringIndexes (decodeEscapedNewlines "AB\\nCD".toList) "C".toList = [3] ∧
    mainColored "AB\\nCD".toList "C".toList letterBanner "<".toList
      = some ("A0B0\nA1B1\nA2B2\nA3B3\nA4B4\nA5B5\nA6B6\nA7B7\n".toList ++
          "C0<D0\x1b[0m\nC1<D1\x1b[0m\nC2<D2\x1b[0m\nC3<D3\x1b[0m\n".toList ++
          "C4<D4\x1b[0m\nC5<D5\x1b[0m\nC6<D6\x1b[0m\nC7<D7\x1b[0m\n".toList) ∧
    mainColored "AB\\nCD".toList "C".toList letterBanner "<".toList
      ≠ RenderWithColor "AB\\nCD".toList letterBanner "<".toList
          (FindSubstringIndexes (decodeEscapedNewlines "AB\\nCD".toList) "C".toList) := by
  have hascii : ∀ c ∈ decodeEscapedNewlines "AB\\nCD".toList, c.toNat < 128 := by
    rw [decode_AB_CD]; decide
  have hnl : LF ∈ decodeEscapedNewlines "AB\\nCD".toList := by rw [decode_AB_CD]; decide
  have h4 : FindSubstringIndexes "AB\\nCD".toList "C".toList = [4] := by decide
  have h3 : FindSubstringIndexes (decodeEscapedNewlines "AB\\nCD".toList) "C".toList = [3] := by
    rw [decode_AB_CD]; decide
  refine ⟨h4, h3, ?_, ?_⟩
  · unfold mainColored
    simp only [h4]
    rw [RenderWithColor_multi _ _ _ _ letterBanner_tallEnough hascii hnl, decode_AB_CD]
    decide
  · unfold mainColored
    simp only [h4, h3]
    rw [RenderWithColor_multi _ _ _ _ letterBanner_tallEnough hascii hnl,
      RenderWithColor_multi _ _ _ _ letterBanner_tallEnough hascii hnl, decode_AB_CD]
    decide

theorem foldl_append_eq {α β : Type} (g : α → List β) : ∀ (l : List α) (init : List β),
    l.foldl (fun acc x => acc ++ g x) init = init ++ l.flatMap g := by
  intro l
  induction l with
  | nil => intro init; simp
  | cons x xs ih => intro init; rw [List.foldl_cons, ih]; simp

theorem bytes_ne_nil (s : Str) (h : s ≠ []) : bytes s ≠ [] := by
  cases s with
  | nil => exact absurd rfl h
  | cons c rest =>
    intro hb
    have hl := congrArg List.length hb
    simp only [bytes, List.flatMap_cons, List.length_append, String.length_utf8EncodeChar,
      List.length_nil] at hl
    have := c.utf8Size_pos
    omega

theorem FindSubstringIndexes_eq (text substring : Str) (h : substring ≠ []) :
    FindSubstringIndexes text substring
      = (List.range (((bytes text).length : Int) - ((bytes substring).length : Int) + 1).toNat).flatMap
          (matchOffsets (bytes text) (bytes substring)) := by
  unfold FindSubstringIndexes
  rw [if_neg h]
  have hstep : (fun (indexes : List Int) (i : Nat) =>
      if sliceBytes (bytes text) i (i + (bytes substring).length) = bytes substring then
        (List.range (bytes substring).length).foldl
          (fun indexes j => indexes ++ [((i + j : Nat) : Int)]) indexes
      else indexes)
      = (fun acc i => acc ++ matchOffsets (bytes text) (bytes substring) i) := by
    funext indexes i
    unfold matchOffsets
    split
    · rw [foldl_append_eq (fun j => [((i + j : Nat) : Int)])]
      congr 1
      induction (List.range (bytes substring).length) with
      | nil => rfl
      | cons a l ih => rw [List.flatMap_cons, ih]; rfl
    · simp
  show List.foldl _ [] _ = _
  rw [hstep, foldl_append_eq]
  simp

theorem sliceBytes_length_le (t : List UInt8) (i : Nat) (s : List UInt8)
    (h : sliceBytes t i (i + s.length) = s) (hs : s ≠ []) : i + s.length ≤ t.length := by
  have hl := congrArg List.length h
  simp only [sliceBytes, List.length_take, List.length_drop] at hl
  have : 0 < s.length := List.length_pos.mpr hs
  omega

theorem mem_FindSubstringIndexes (text substring : Str) (h : substring ≠ []) (p : Int) :
    p ∈ FindSubstringIndexes text substring ↔
      ∃ i : Nat, i + len substring ≤ len text ∧ (i : Int) ≤ p ∧ p < (i : Int) + len substring ∧
        sliceBytes (bytes text) i (i + len substring) = bytes substring := by
  rw [FindSubstringIndexes_eq text substring h, List.mem_flatMap]
  unfold len
  constructor
  · rintro ⟨i, _, hp⟩
    unfold matchOffsets at hp
    split at hp
    · rename_i hm
      rw [List.mem_map] at hp
      obtain ⟨j, hj, rfl⟩ := hp
      rw [List.mem_range] at hj
      exact ⟨i, sliceBytes_length_le _ i _ hm (bytes_ne_nil _ h), by omega, by omega, hm⟩
    · cases hp
  · rintro ⟨i, hle, h1, h2, hm⟩
    refine ⟨i, ?_, ?_⟩
    · rw [List.mem_range]; omega
    · unfold matchOffsets
      rw [if_pos hm, List.mem_map]
      refine ⟨(p - i).toNat, ?_, ?_⟩
      · rw [List.mem_range]; omega
      · omega

/-- C10: for a non-empty substring, an offset `p` is in the result of
FindSubstringIndexes iff some start offset `i` with `i <= p < i + len(substring)`
has `text[i : i+len(substring)] = substring` (bytes); every start is tested, and
the result is empty when the substring has no occurrence, in particular when
it is longer than the text. -/
theorem C10_FindSubstringIndexes_mem (text substring : Str) (h : substring ≠ []) :
    (∀ p : Int, p ∈ FindSubstringIndexes text substring ↔
      ∃ i : Nat, i + len substring ≤ len text ∧ (i : Int) ≤ p ∧ p < (i : Int) + len substring ∧
        sliceBytes (bytes text) i (i + len substring) = bytes substring) ∧
    ((∀ i : Nat, sliceBytes (bytes text) i (i + len substring) ≠ bytes substring) →
      FindSubstringIndexes text substring = []) ∧
    (len text < len substring → FindSubstringIndexes text substring = []) := by
  refine ⟨mem_FindSubstringIndexes text substring h, ?_, ?_⟩
  · intro hno
    apply List.eq_nil_iff_forall_not_mem.mpr
    intro p hp
    obtain ⟨i, _, _, _, hm⟩ := (mem_FindSubstringIndexes text substring h p).mp hp
    exact hno i hm
  · intro hlt
    apply List.eq_nil_iff_forall_not_mem.mpr
    intro p hp
    obtain ⟨i, hle, _, _, _⟩ := (mem_FindSubstringIndexes text substring h p).mp hp
    omega

/-- C10 at the test inputs: kit in "a kitten" gives 2, 3, 4; a in "banana"
gives 1, 3, 5; xyz in "hello" gives nothing; offset 3 of "a kitten" is a
member through the start offset 2. -/
theorem C10_FindSubstringIndexes_tests :
    "kit".toList ≠ [] ∧
    ((3 : Int) ∈ FindSubstringIndexes "a kitten".toList "kit".toList ↔
      ∃ i : Nat, i + len "kit".toList ≤ len "a kitten".toList ∧ (i : Int) ≤ 3 ∧
        (3 : Int) < (i : Int) + len "kit".toList ∧
        sliceBytes (bytes "a kitten".toList) i (i + len "kit".toList) = bytes "kit".toList) ∧
    FindSubstringIndexes "a kitten".toList "kit".toList = [2, 3, 4] ∧
    FindSubstringIndexes "banana".toList "a".toList = [1, 3, 5] ∧
    FindSubstringIndexes "hello".toList "xyz".toList = [] :=
  ⟨by decide, (C10_FindSubstringIndexes_mem "a kitten".toList "kit".toList (by decide)).1 3,
   by decide, by decide, by decide⟩

theorem fillOffsets_ascii : ∀ (rest : List Char) (done : List Int),
    (∀ c ∈ rest, c.toNat < 128) →
    fillOffsets rest done.length (done ++ List.replicate rest.length 0)
      = done ++ (List.range' done.length rest.length).map (fun (i : Nat) => (i : Int)) := by
  intro rest
  induction rest with
  | nil => intro done _; simp [fillOffsets]
  | cons ch rest ih =>
    intro done h
    have h1 := utf8Size_ascii ch (h ch (List.mem_cons_self _ _))
    have hset : (done ++ List.replicate (ch :: rest).length 0).set done.length (done.length : Int)
        = (done ++ [(done.length : Int)]) ++ List.replicate rest.length 0 := by
      rw [List.set_append_right _ _ (Nat.le_refl _)]
      simp [List.replicate_succ]
    unfold fillOffsets
    rw [String.length_utf8EncodeChar, h1, hset]
    have := ih (done ++ [(done.length : Int)]) (fun c hc => h c (List.mem_cons_of_mem _ hc))
    rw [List.length_append, List.length_singleton] at this
    rw [this, List.length_cons, List.range'_succ]
    simp

theorem FindSubstringIndexes_empty_ascii (text : Str) (h : ∀ c ∈ text, c.toNat < 128) :
    FindSubstringIndexes text [] = (List.range text.length).map (fun (i : Nat) => (i : Int)) := by
  unfold FindSubstringIndexes
  rw [if_pos rfl, len_ascii text h]
  have := fillOffsets_ascii text [] h
  simpa [List.range_eq_range'] using this

/-- C11 at a text with a two-byte character: for the text U+00E9, a (3 bytes)
and the empty substring, FindSubstringIndexes returns 0, 0, 2 and not the
offsets 0, 1, 2: the slot of the continuation byte keeps its zero. -/
theorem C11_empty_substring_two_byte_char :
    len textEA = 3 ∧
    FindSubstringIndexes textEA [] = [0, 0, 2] ∧
    FindSubstringIndexes textEA [] ≠ (List.range (len textEA)).map (fun (i : Nat) => (i : Int)) ∧
    FindSubstringIndexes "Hi".toList [] = [0, 1] := by
  decide

theorem matchOffsets_mem (t s : List UInt8) (i : Nat) (p : Int) (h : p ∈ matchOffsets t s i) :
    sliceBytes t i (i + s.length) = s ∧ (i : Int) ≤ p ∧ p < (i : Int) + s.length := by
  unfold matchOffsets at h
  split at h
  · rename_i hm
    rw [List.mem_map] at h
    obtain ⟨j, hj, rfl⟩ := h
    rw [List.mem_range] at hj
    exact ⟨hm, by omega, by omega⟩
  · cases h

theorem matchOffsets_pairwise (t s : List UInt8) (i : Nat) :
    List.Pairwise (· < ·) (matchOffsets t s i) := by
  unfold matchOffsets
  split
  · rw [List.pairwise_map]
    exact (List.pairwise_lt_range s.length).imp (fun h => by omega)
  · exact List.Pairwise.nil

theorem FindSubstringIndexes_strict (text substring : Str) (h : substring ≠ [])
    (hno : NoOverlap text substring) :
    List.Pairwise (· < ·) (FindSubstringIndexes text substring) := by
  rw [FindSubstringIndexes_eq text substring h, List.pairwise_flatMap]
  refine ⟨fun i _ => matchOffsets_pairwise _ _ i, ?_⟩
  refine (List.pairwise_lt_range _).imp ?_
  intro i j hij x hx y hy
  obtain ⟨hmi, _, hx2⟩ := matchOffsets_mem _ _ i x hx
  obtain ⟨hmj, hy1, _⟩ := matchOffsets_mem _ _ j y hy
  have := hno i j hij hmi hmj
  unfold len at this
  omega

/-- C12, the claim as stated, fails: for the text aaa and the substring aa
the two occurrences overlap and the result 0, 1, 1, 2 repeats offset 1, so
it is not strictly increasing. -/
theorem C12_overlap_repeats_offsets :
    FindSubstringIndexes "aaa".toList "aa".toList = [0, 1, 1, 2] ∧
    ¬ List.Pairwise (· < ·) (FindSubstringIndexes "aaa".toList "aa".toList) := by
  decide

/-- C12 amended: the result of FindSubstringIndexes is strictly increasing,
each offset appearing once, for a non-empty substring whose occurrences in
the text do not overlap, and for the empty substring on an ASCII text. -/
theorem C12_strictly_increasing_without_overlap (text substring : Str)
    (h : (substring = [] ∧ ∀ c ∈ text, c.toNat < 128) ∨
         (substring ≠ [] ∧ NoOverlap text substring)) :
    List.Pairwise (· < ·) (FindSubstringIndexes text substring) := by
  rcases h with ⟨rfl, hascii⟩ | ⟨hne, hno⟩
  · rw [FindSubstringIndexes_empty_ascii text hascii]
    rw [List.pairwise_map]
    exact (List.pairwise_lt_range _).imp (fun h => Int.ofNat_lt.mpr h)
  · exact FindSubstringIndexes_strict text substring hne hno

theorem noOverlap_banana : NoOverlap "banana".toList "a".toList := by
  intro i j hij _ _
  have : len "a".toList = 1 := by decide
  omega

/-- C12 amended, at the test input: a in banana has non-overlapping
occurrences and the result 1, 3, 5 is strictly increasing. -/
theorem C12_strictly_increasing_banana :
    NoOverlap "banana".toList "a".toList ∧
    List.Pairwise (· < ·) (FindSubstringIndexes "banana".toList "a".toList) ∧
    FindSubstringIndexes "banana".toList "a".toList = [1, 3, 5] :=
  ⟨noOverlap_banana,
   C12_strictly_increasing_without_overlap _ _ (Or.inr ⟨by decide, noOverlap_banana⟩),
   by decide⟩

theorem glyphRow_absent (b : Banner) (row : Nat) (ch : Char) (h : b.get ch = none) :
    glyphRow b row ch = [] := by
  unfold glyphRow; rw [h]

theorem flatMap_glyphRow_filter (b : Banner) (row : Nat) (s : Str) :
    (s.filter (fun ch => (b.get ch).isSome)).flatMap (glyphRow b row)
      = s.flatMap (glyphRow b row) := by
  induction s with
  | nil => rfl
  | cons ch rest ih =>
    cases hg : b.get ch with
    | none =>
      rw [List.filter_cons, hg, List.flatMap_cons, glyphRow_absent b row ch hg]
      simp only [Option.isSome_none, Bool.false_eq_true, if_false, List.nil_append, ih]
    | some g =>
      rw [List.filter_cons, hg]
      simp only [Option.isSome_some, if_true, List.flatMap_cons, ih]

theorem rowMajor_filter (b : Banner) (s : Str) :
    rowMajor b (s.filter (fun ch => (b.get ch).isSome)) = rowMajor b s := by
  unfold rowMajor
  congr 1
  funext row
  rw [flatMap_glyphRow_filter]

theorem rowMajor_absent (b : Banner) (s : Str) (h : ∀ ch ∈ s, b.get ch = none) :
    rowMajor b s = List.replicate charHeight LF := by
  have hrow : ∀ row, s.flatMap (glyphRow b row) = [] := by
    intro row
    rw [List.flatMap_eq_nil_iff]
    intro ch hch
    exact glyphRow_absent b row ch (h ch hch)
  unfold rowMajor
  simp only [hrow, List.nil_append]
  decide

/-- C13: on a glyph set with tall enough entries, RenderLine of a text equals
RenderLine of the text without the characters that have no entry, both being
returned; a text made only of such characters renders as exactly 8 bare line
breaks. -/
theorem C13_unknown_characters_vanish (s : Str) (b : Banner) (hb : b.TallEnough) :
    RenderLine s b = RenderLine (s.filter (fun ch => (b.get ch).isSome)) b ∧
    (RenderLine s b).isSome ∧
    ((∀ ch ∈ s, b.get ch = none) → RenderLine s b = some (List.replicate 8 LF)) := by
  refine ⟨?_, ?_, ?_⟩
  · rw [RenderLine_eq_rowMajor s b hb, RenderLine_eq_rowMajor _ b hb, rowMajor_filter]
  · rw [RenderLine_eq_rowMajor s b hb]; rfl
  · intro h
    rw [RenderLine_eq_rowMajor s b hb, rowMajor_absent b s h]
    rfl

/-- C13 at the test banner: Z has no glyph, so AZB renders as AB and Z alone
as 8 bare line breaks. -/
theorem C13_unknown_characters_vanish_Z :
    fakeBanner.TallEnough ∧
    RenderLine "AZB".toList fakeBanner = RenderLine "AB".toList fakeBanner ∧
    RenderLine "Z".toList fakeBanner = some "\n\n\n\n\n\n\n\n".toList := by
  have h1 := C13_unknown_characters_vanish "AZB".toList fakeBanner fakeBanner_tallEnough
  have h2 := C13_unknown_characters_vanish "Z".toList fakeBanner fakeBanner_tallEnough
  refine ⟨fakeBanner_tallEnough, ?_, ?_⟩
  · rw [h1.1]; decide
  · rw [h2.2.2 (by decide)]; decide

theorem decode_nil : decodeEscapedNewlines [] = [] := by
  rw [decodeEscapedNewlines_eq_dec]; rfl

/-- C15: for every glyph set RenderInput of the empty text is the empty
string, and so is RenderWithColor of the empty text for every colour code and
position list. -/
theorem C15_empty_input (b : Banner) (colorCode : Str) (indexes : List Int) :
    RenderInput [] b = some [] ∧ RenderWithColor [] b colorCode indexes = some [] := by
  constructor
  · unfold RenderInput; simp only [decode_nil, if_true]
  · unfold RenderWithColor; simp only [decode_nil, if_true]

theorem dec_head_ne_n (d : Char) (rest : List Char) (hd : d ≠ 'n') (y : Char) (ys : List Char)
    (h : dec (d :: rest) = y :: ys) : y ≠ 'n' := by
  cases rest with
  | nil =>
    rw [dec] at h
    cases h
    exact hd
  | cons e rest2 =>
    rw [dec_cons_cons] at h
    split at h
    · cases h; decide
    · cases h; exact hd

theorem dec_no_escape : ∀ (n : Nat) (s : List Char), s.length = n →
    ¬ ([backslash, 'n'] <:+: dec s) := by
  intro n
  induction n using Nat.strong_induction_on with
  | _ n ih =>
    intro s hn
    match s, hn with
    | [], _ => rw [dec]; simp
    | [c], _ =>
      rw [dec]
      intro h
      have := h.length_le
      simp at this
    | c :: d :: rest, hn =>
      rw [dec_cons_cons]
      simp only [List.length_cons] at hn
      split
      · rw [List.infix_cons_iff]
        rintro (hp | hi)
        · rw [List.prefix_cons_iff] at hp
          rcases hp with hp | ⟨t, ht, _⟩
          · cases hp
          · have : backslash = LF := (List.cons.inj ht).1
            exact absurd this (by decide)
        · exact ih rest.length (by omega) rest rfl hi
      · rename_i hne
        rw [List.infix_cons_iff]
        rintro (hp | hi)
        · rw [List.prefix_cons_iff] at hp
          rcases hp with hp | ⟨t, ht, hpre⟩
          · cases hp
          · obtain ⟨hc, ht2⟩ := List.cons.inj ht
            subst ht2
            cases hdec : dec (d :: rest) with
            | nil => rw [hdec] at hpre; simp at hpre
            | cons y ys =>
              rw [hdec, List.prefix_cons_iff] at hpre
              rcases hpre with hp2 | ⟨t2, ht2, _⟩
              · cases hp2
              · have hy : 'n' = y := (List.cons.inj ht2).1
                have hd : d ≠ 'n' := fun hd => hne ⟨hc.symm, hd⟩
                exact dec_head_ne_n d rest hd y ys hdec hy.symm
        · exact ih (rest.length + 1) (by omega) (d :: rest) rfl hi

theorem dec_of_no_escape : ∀ t : List Char, ¬ ([backslash, 'n'] <:+: t) → dec t = t := by
  intro t
  induction t with
  | nil => intro _; rfl
  | cons c rest ih =>
    intro h
    cases rest with
    | nil => rfl
    | cons d rest2 =>
      rw [dec_cons_cons]
      have hne : ¬ (c = backslash ∧ d = 'n') := by
        rintro ⟨rfl, rfl⟩
        exact h ⟨[], rest2, by simp⟩
      rw [if_neg hne, ih (fun hi => h (List.infix_cons hi))]

theorem dec_idempotent (s : List Char) : dec (dec s) = dec s :=
  dec_of_no_escape (dec s) (dec_no_escape s.length s rfl)

/-- C16: rendering the decoded text gives the same result as rendering the
raw text; decodeEscapedNewlines is idempotent and its output never contains a
backslash immediately followed by the letter n. -/
theorem C16_decode_round_trip :
    (∀ (s : Str) (b : Banner),
      RenderInput (decodeEscapedNewlines s) b = RenderInput s b) ∧
    (∀ s : Str, decodeEscapedNewlines (decodeEscapedNewlines s) = decodeEscapedNewlines s) ∧
    (∀ s : Str, ¬ ([backslash, 'n'] <:+: decodeEscapedNewlines s)) := by
  have hidem : ∀ s : Str,
      decodeEscapedNewlines (decodeEscapedNewlines s) = decodeEscapedNewlines s := by
    intro s
    rw [decodeEscapedNewlines_eq_dec, decodeEscapedNewlines_eq_dec, dec_idempotent]
  refine ⟨?_, hidem, ?_⟩
  · intro s b
    unfold RenderInput
    rw [hidem]
  · intro s
    rw [decodeEscapedNewlines_eq_dec]
    exact dec_no_escape s.length s rfl

theorem glyphRow_clean (b : Banner) (hc : b.RowsClean) (row : Nat) (ch : Char) :
    LF ∉ glyphRow b row ch := by
  unfold glyphRow
  cases hg : b.get ch with
  | none => simp
  | some g =>
    simp only [List.getD_eq_getElem?_getD]
    cases hr : g[row]? with
    | none => simp
    | some r => exact hc ch g hg r (List.getElem?_mem hr)

theorem count_rows (F : Nat → Str) (hF : ∀ row, LF ∉ F row) : ∀ rows : List Nat,
    (rows.flatMap (fun row => F row ++ [LF])).count LF = rows.length := by
  intro rows
  induction rows with
  | nil => rfl
  | cons row rest ih =>
    rw [List.flatMap_cons, List.count_append, List.count_append, ih,
      List.count_eq_zero.mpr (hF row)]
    simp
    omega

theorem count_rowMajor (b : Banner) (hc : b.RowsClean) (s : Str) :
    (rowMajor b s).count LF = 8 := by
  unfold rowMajor
  rw [count_rows (fun row => s.flatMap (glyphRow b row))]
  · rfl
  · intro row hmem
    rw [List.mem_flatMap] at hmem
    obtain ⟨ch, _, hch⟩ := hmem
    exact glyphRow_clean b hc row ch hch

theorem rowMajor_getLast (b : Banner) (s : Str) : (rowMajor b s).getLast? = some LF := by
  unfold rowMajor
  have : List.range charHeight = List.range 7 ++ [7] := by decide
  rw [this, List.flatMap_append, List.flatMap_singleton, ← List.append_assoc,
    List.getLast?_concat]

theorem renderParts_count (b : Banner) (hb : b.TallEnough) (hc : b.RowsClean) (n : Nat) :
    ∀ (rest : List Str) (i : Nat) (builder : Str) (hadText : Bool), n = i + rest.length →
    ∃ out, renderParts b n rest i builder hadText = some out ∧
      out.count LF = builder.count LF + lineCountLoop rest hadText := by
  intro rest
  induction rest with
  | nil => intro i builder hadText _; exact ⟨builder, rfl, by simp [lineCountLoop]⟩
  | cons p rest ih =>
    intro i builder hadText hn
    simp only [List.length_cons] at hn
    unfold renderParts lineCountLoop
    by_cases hp : p ≠ []
    · obtain ⟨out, ho, hcount⟩ := ih (i + 1) (builder ++ rowMajor b p) true (by omega)
      refine ⟨out, ?_, ?_⟩
      · simp only [hp, if_true, ne_eq, not_false_eq_true, RenderLine_eq_rowMajor p b hb,
          Option.bind_eq_bind, Option.some_bind]
        exact ho
      · rw [hcount, List.count_append, count_rowMajor b hc, if_pos hp]
        omega
    · have hp2 : p = [] := by simpa using hp
      subst hp2
      simp only [ne_eq, not_true_eq_false, if_false]
      cases rest with
      | nil =>
        have hlast : ((i : Int) = (n : Int) - 1) := by simp at hn; omega
        simp only [hlast, decide_True, Bool.not_true, Bool.false_eq_true, if_false]
        cases hadText
        · exact ⟨builder, by simp [renderParts], by simp⟩
        · exact ⟨builder ++ [LF], by simp [renderParts], by simp⟩
      | cons q rest2 =>
        have hnl : ¬ ((i : Int) = (n : Int) - 1) := by
          simp only [List.length_cons] at hn; omega
        simp only [hnl, decide_False, Bool.not_false, if_true]
        obtain ⟨out, ho, hcount⟩ := ih (i + 1) (builder ++ [LF]) hadText
          (by simp only [List.length_cons] at hn ⊢; omega)
        refine ⟨out, ho, ?_⟩
        rw [hcount]
        simp
        omega

theorem lineCountLoop_eq : ∀ (parts : List Str) (hadText : Bool),
    lineCountLoop parts hadText
      = 8 * (parts.filter (fun p => decide (p ≠ []))).length
        + (parts.dropLast.filter (fun p => decide (p = []))).length
        + (if parts.getLast? = some [] ∧
              (hadText || parts.any (fun p => decide (p ≠ []))) = true then 1 else 0) := by
  intro parts
  induction parts with
  | nil => intro hadText; simp [lineCountLoop]
  | cons p rest ih =>
    intro hadText
    unfold lineCountLoop
    cases rest with
    | nil =>
      by_cases hp : p = []
      · subst hp; cases hadText <;> simp [lineCountLoop]
      · have hp3 : ¬ (some p = some ([] : Str)) := fun h => hp (Option.some.inj h)
        simp [lineCountLoop, hp, hp3]
    | cons q rest2 =>
      by_cases hp : p = []
      · subst hp
        simp only [ne_eq, not_true_eq_false, if_false, reduceCtorEq, not_false_eq_true, if_true,
          ih hadText, List.dropLast_cons₂, List.getLast?_cons_cons, List.filter_cons,
          decide_True, decide_False, List.any_cons, Bool.false_or, List.length_cons]
        simp
        omega
      · simp only [ne_eq, hp, not_false_eq_true, if_true, ih true, List.dropLast_cons₂,
          List.getLast?_cons_cons, List.filter_cons, decide_True, decide_False,
          List.any_cons, Bool.true_or, Bool.or_true, List.length_cons]
        simp
        omega

theorem lineCountLoop_false (parts : List Str) :
    lineCountLoop parts false = lineCountSpec parts := by
  rw [lineCountLoop_eq]
  simp [lineCountSpec]

theorem splitLF_no_LF (s : Str) (h : LF ∉ s) : splitLF s = [s] := by
  induction s with
  | nil => rfl
  | cons c rest ih =>
    have hc : c ≠ LF := fun e => h (by rw [e]; exact List.mem_cons_self _ _)
    have hr : LF ∉ rest := fun hm => h (List.mem_cons_of_mem _ hm)
    unfold splitLF
    rw [if_neg hc, ih hr]

theorem rowsClean_of_entries (b : Banner) (h : ∀ e ∈ b, ∀ r ∈ e.2, LF ∉ r) : b.RowsClean := by
  intro ch g hg
  unfold Banner.get at hg
  rw [List.lookup_eq_some_iff] at hg
  obtain ⟨l1, l2, rfl, _⟩ := hg
  exact h (ch, g) (by simp)

theorem fakeBanner_rowsClean : fakeBanner.RowsClean :=
  rowsClean_of_entries _ (by decide)

theorem RenderInput_count (raw : Str) (b : Banner) (hb : b.TallEnough) (hc : b.RowsClean) :
    ∃ out, RenderInput raw b = some out ∧
      out.count LF = lineCountSpec (splitLF (decodeEscapedNewlines raw)) ∧
      (LF ∉ decodeEscapedNewlines raw → decodeEscapedNewlines raw ≠ [] →
        out.count LF = 8 ∧ out.getLast? = some LF) := by
  unfold RenderInput
  by_cases hnil : decodeEscapedNewlines raw = []
  · refine ⟨[], by simp only [hnil, if_true], ?_, fun _ h => absurd hnil h⟩
    rw [hnil]; decide
  · by_cases hnl : LF ∈ decodeEscapedNewlines raw
    · obtain ⟨out, ho, hcount⟩ := renderParts_count b hb hc
        (splitLF (decodeEscapedNewlines raw)).length (splitLF (decodeEscapedNewlines raw))
        0 [] false (by simp)
      refine ⟨out, ?_, ?_, fun h => absurd hnl h⟩
      · simp only [hnil, if_false, hnl, not_true_eq_false]
        exact ho
      · rw [hcount, lineCountLoop_false]; simp
    · refine ⟨rowMajor b (decodeEscapedNewlines raw), ?_, ?_, fun _ _ => ?_⟩
      · simp only [hnil, if_false, hnl, not_false_eq_true, if_true]
        exact RenderLine_eq_rowMajor _ b hb
      · rw [count_rowMajor b hc, splitLF_no_LF _ hnl]
        simp [lineCountSpec, hnil]
      · exact ⟨count_rowMajor b hc _, rowMajor_getLast b _⟩

/-- C14: on a glyph set with tall enough entries whose rows contain no line
break, RenderInput returns an output whose number of line breaks is 8 times
the number of non-empty logical lines of the decoded text, plus the number of
empty logical lines that are not the last, plus one when the last logical
line is empty and some logical line is non-empty; a single non-empty logical
line gives exactly 8 line breaks and the output ends with one. -/
theorem C14_line_count (raw : Str) (b : Banner) (hb : b.TallEnough) (hc : b.RowsClean) :
    ∃ out, RenderInput raw b = some out ∧
      out.count LF = lineCountSpec (splitLF (decodeEscapedNewlines raw)) ∧
      (LF ∉ decodeEscapedNewlines raw → decodeEscapedNewlines raw ≠ [] →
        out.count LF = 8 ∧ out.getLast? = some LF) :=
  RenderInput_count raw b hb hc

theorem decode_A__B : decodeEscapedNewlines "A\\n\\nB\\n".toList = "A\n\nB\n".toList := by
  rw [decodeEscapedNewlines_eq_dec]; decide

/-- C14 at the test banner: the text A, escape, escape, B, escape has the
logical lines A, empty, B, empty and its output has 8 + 1 + 8 + 1 = 18 line
breaks. -/
theorem C14_line_count_A__B :
    fakeBanner.TallEnough ∧ fakeBanner.RowsClean ∧
    lineCountSpec (splitLF (decodeEscapedNewlines "A\\n\\nB\\n".toList)) = 18 ∧
    ∃ out, RenderInput "A\\n\\nB\\n".toList fakeBanner = some out ∧ out.count LF = 18 := by
  have hspec : lineCountSpec (splitLF (decodeEscapedNewlines "A\\n\\nB\\n".toList)) = 18 := by
    rw [decode_A__B]; decide
  obtain ⟨out, ho, hcount, _⟩ :=
    C14_line_count "A\\n\\nB\\n".toList fakeBanner fakeBanner_tallEnough fakeBanner_rowsClean
  exact ⟨fakeBanner_tallEnough, fakeBanner_rowsClean, hspec, out, ho, by rw [hcount, hspec]⟩

theorem replaceCRLF_cons_cons (c d : Char) (rest : List Char) :
    replaceCRLF (c :: d :: rest) =
      if c = CR ∧ d = LF then LF :: replaceCRLF rest else c :: replaceCRLF (d :: rest) := by
  rw [replaceCRLF]

theorem replaceCRLF_cons_ne (c : Char) (rest : List Char) (h : c ≠ CR) :
    replaceCRLF (c :: rest) = c :: replaceCRLF rest := by
  cases rest with
  | nil => rfl
  | cons d rest2 =>
    rw [replaceCRLF_cons_cons, if_neg (fun hh => h hh.1)]

theorem replaceCRLF_toCRLF (c : Str) (h : CR ∉ c) : replaceCRLF (toCRLF c) = c := by
  induction c with
  | nil => rfl
  | cons x rest ih =>
    have hx : x ≠ CR := fun e => h (by rw [e]; exact List.mem_cons_self _ _)
    have hr := ih (fun hm => h (List.mem_cons_of_mem _ hm))
    unfold toCRLF at hr ⊢
    rw [List.flatMap_cons]
    by_cases hl : x = LF
    · subst hl
      rw [if_pos rfl]
      show replaceCRLF (CR :: LF :: _) = _
      rw [replaceCRLF_cons_cons, if_pos ⟨rfl, rfl⟩]
      exact congrArg (List.cons LF) hr
    · rw [if_neg hl]
      show replaceCRLF (x :: _) = _
      rw [replaceCRLF_cons_ne x _ hx]
      exact congrArg (List.cons x) hr

theorem replaceCRLF_no_LF (t : Str) (h : LF ∉ t) : replaceCRLF t = t := by
  induction t with
  | nil => rfl
  | cons x rest ih =>
    have hr := ih (fun hm => h (List.mem_cons_of_mem _ hm))
    cases rest with
    | nil => rfl
    | cons d rest2 =>
      have hd : d ≠ LF := fun e => h (by rw [e]; simp)
      rw [replaceCRLF_cons_cons, if_neg (fun hh => hd hh.2), hr]

theorem replaceCR_no_CR (t : Str) (h : CR ∉ t) : replaceCR t = t := by
  unfold replaceCR
  conv_rhs => rw [← List.map_id t]
  apply List.map_congr_left
  intro x hx
  have : x ≠ CR := fun e => h (by rw [← e]; exact hx)
  simp [this]

theorem toCR_no_LF (c : Str) : LF ∉ toCR c := by
  unfold toCR
  rw [List.mem_map]
  rintro ⟨x, _, hx⟩
  split at hx
  · exact absurd hx (by decide)
  · rename_i hne; exact hne hx

theorem replaceCR_toCR (c : Str) (h : CR ∉ c) : replaceCR (toCR c) = c := by
  unfold replaceCR toCR
  rw [List.map_map]
  conv_rhs => rw [← List.map_id c]
  apply List.map_congr_left
  intro x hx
  have hne : x ≠ CR := fun e => h (by rw [← e]; exact hx)
  by_cases hl : x = LF
  · simp [hl]
  · simp [hl, hne]

theorem bannerLines_toCRLF (c : Str) (h : CR ∉ c) : bannerLines (toCRLF c) = bannerLines c := by
  have hLF : ∀ t : Str, CR ∉ t → replaceCRLF t = t := by
    intro t ht
    induction t with
    | nil => rfl
    | cons x rest ih =>
      have hx : x ≠ CR := fun e => ht (by rw [e]; exact List.mem_cons_self _ _)
      rw [replaceCRLF_cons_ne x rest hx, ih (fun hm => ht (List.mem_cons_of_mem _ hm))]
  unfold bannerLines
  rw [replaceCRLF_toCRLF c h, hLF c h]

theorem bannerLines_toCR (c : Str) (h : CR ∉ c) : bannerLines (toCR c) = bannerLines c := by
  have hLF : replaceCRLF c = c := by
    induction c with
    | nil => rfl
    | cons x rest ih =>
      have hx : x ≠ CR := fun e => h (by rw [e]; exact List.mem_cons_self _ _)
      rw [replaceCRLF_cons_ne x rest hx, ih (fun hm => h (List.mem_cons_of_mem _ hm))]
  unfold bannerLines
  rw [replaceCRLF_no_LF _ (toCR_no_LF c), replaceCR_toCR c h, hLF, replaceCR_no_CR c h]

theorem splitLF_no_LF_in_parts (s : Str) : ∀ p ∈ splitLF s, LF ∉ p := by
  induction s with
  | nil => intro p hp; simp [splitLF] at hp; subst hp; simp
  | cons a rest ih =>
    intro p hp
    unfold splitLF at hp
    split at hp
    · rcases List.mem_cons.mp hp with rfl | hp2
      · simp
      · exact ih p hp2
    · rename_i hne
      split at hp
      · rename_i heq; exact absurd heq (splitLF_ne_nil rest)
      · rename_i q qs heq
        rcases List.mem_cons.mp hp with rfl | hp2
        · intro hm
          rcases List.mem_cons.mp hm with e | hm2
          · exact hne e.symm
          · exact ih q (by rw [heq]; exact List.mem_cons_self _ _) hm2
        · exact ih p (by rw [heq]; exact List.mem_cons_of_mem _ hp2)

theorem replaceCR_no_CR_mem (t : Str) : CR ∉ replaceCR t := by
  unfold replaceCR
  rw [List.mem_map]
  rintro ⟨x, _, hx⟩
  split at hx
  · exact absurd hx (by decide)
  · rename_i hne; exact hne hx

theorem bannerLines_clean (data : Str) : ∀ p ∈ bannerLines data, CR ∉ p ∧ LF ∉ p := by
  intro p hp
  unfold bannerLines at hp
  refine ⟨fun hcr => ?_, splitLF_no_LF_in_parts _ p hp⟩
  exact replaceCR_no_CR_mem _ (splitLF_mem _ p hp CR hcr)

/-- C17: for a glyph-file content without CR, the content with every LF
replaced by CR LF and the content with every LF replaced by a lone CR load to
exactly the result of the content itself (same error or same mapping); and no
row of a loaded glyph, for any content, contains a CR or an LF. -/
theorem C17_line_endings_normalized (c : Str) (h : CR ∉ c) :
    LoadBanner (some (toCRLF c)) = LoadBanner (some c) ∧
    LoadBanner (some (toCR c)) = LoadBanner (some c) ∧
    (∀ (data : Str) (banner : Banner), LoadBanner (some data) = (some banner, none) →
      ∀ ch g, banner.get ch = some g → ∀ r ∈ g, CR ∉ r ∧ LF ∉ r) := by
  refine ⟨?_, ?_, ?_⟩
  · show loadLoop (bannerLines (toCRLF c)) _ [] = loadLoop (bannerLines c) _ []
    rw [bannerLines_toCRLF c h]
  · show loadLoop (bannerLines (toCR c)) _ [] = loadLoop (bannerLines c) _ []
    rw [bannerLines_toCR c h]
  · intro data banner hload ch g hg r hr
    obtain ⟨_, rfl⟩ := LoadBanner_success_lines data banner hload
    obtain ⟨_, rfl⟩ := bannerOf_get_some _ ch g hg
    apply bannerLines_clean data r
    unfold glyphAt at hr
    exact List.mem_of_mem_drop (List.mem_of_mem_take hr)

set_option maxRecDepth 100000 in
/-- C17 at the file of 95 blocks with rows `x`: its CR LF and lone CR
variants load to the same mapping. -/
theorem C17_line_endings_blockFile :
    CR ∉ blockFile ∧
    LoadBanner (some (toCRLF blockFile)) = LoadBanner (some blockFile) ∧
    LoadBanner (some (toCR blockFile)) = LoadBanner (some blockFile) := by
  have h : CR ∉ blockFile := by decide
  exact ⟨h, (C17_line_endings_normalized blockFile h).1,
    (C17_line_endings_normalized blockFile h).2.1⟩

theorem colorFlag_facts (v : Str) :
    HasPrefix ("--color=".toList ++ v) "--".toList = true ∧
    HasPrefix ("--color=".toList ++ v) "--color=".toList = true ∧
    ("--color=".toList ++ v).drop 8 = v := by
  refine ⟨?_, ?_, ?_⟩
  · show List.isPrefixOf ['-', '-'] ('-' :: '-' :: _) = true
    simp [List.isPrefixOf]
  · unfold HasPrefix
    rw [List.isPrefixOf_iff_prefix]
    exact List.prefix_append _ _
  · exact List.drop_left' rfl

theorem outputFlag_facts (v : Str) :
    HasPrefix ("--output=".toList ++ v) "--".toList = true ∧
    HasPrefix ("--output=".toList ++ v) "--color=".toList = false ∧
    HasPrefix ("--output=".toList ++ v) "--output=".toList = true ∧
    ("--output=".toList ++ v).drop 9 = v := by
  refine ⟨?_, ?_, ?_, ?_⟩
  · show List.isPrefixOf ['-', '-'] ('-' :: '-' :: _) = true
    simp [List.isPrefixOf]
  · show List.isPrefixOf ['-', '-', 'c', 'o', 'l', 'o', 'r', '=']
      ('-' :: '-' :: 'o' :: _) = false
    simp [List.isPrefixOf]
  · unfold HasPrefix
    rw [List.isPrefixOf_iff_prefix]
    exact List.prefix_append _ _
  · exact List.drop_left' rfl

theorem flagLoop_valid : ∀ (flags : List Str) (opts : ColorOptions) (x : Str) (rest : List Str),
    (∀ f ∈ flags, ValidFlag f) → HasPrefix x "--".toList = false →
    ∃ final : ColorOptions, flagLoop (flags ++ x :: rest) opts = Except.ok (final, x :: rest) ∧
      final.UseColor = (opts.UseColor || flags.any (fun f => HasPrefix f "--color=".toList)) ∧
      final.Substring = opts.Substring ∧ final.Text = opts.Text ∧
      final.Banner = opts.Banner := by
  intro flags
  induction flags with
  | nil =>
    intro opts x rest _ hx
    refine ⟨opts, ?_, by simp, rfl, rfl, rfl⟩
    show flagLoop (x :: rest) opts = _
    unfold flagLoop
    simp only [hx, Bool.false_eq_true, if_false]
  | cons f flags ih =>
    intro opts x rest hv hx
    have hrest : ∀ g ∈ flags, ValidFlag g := fun g hg => hv g (List.mem_cons_of_mem _ hg)
    rcases hv f (List.mem_cons_self _ _) with ⟨v, hne, rfl⟩ | ⟨v, hne, rfl⟩
    · obtain ⟨h1, h2, h3⟩ := colorFlag_facts v
      obtain ⟨final, hf, hu, hs, ht, hb⟩ :=
        ih { opts with UseColor := true, Color := v } x rest hrest hx
      refine ⟨final, ?_, ?_, hs, ht, hb⟩
      · show flagLoop (("--color=".toList ++ v) :: (flags ++ x :: rest)) opts = _
        unfold flagLoop
        simp only [h1, h2, h3, if_true, hne, if_false]
        exact hf
      · rw [hu, List.any_cons, h2]; simp
    · obtain ⟨h1, h2, h3, h4⟩ := outputFlag_facts v
      obtain ⟨final, hf, hu, hs, ht, hb⟩ :=
        ih { opts with OutputFile := v } x rest hrest hx
      refine ⟨final, ?_, ?_, hs, ht, hb⟩
      · show flagLoop (("--output=".toList ++ v) :: (flags ++ x :: rest)) opts = _
        unfold flagLoop
        simp only [h1, h2, h3, h4, if_true, hne, if_false, Bool.false_eq_true]
        exact hf
      · rw [hu, List.any_cons, h2]; simp

/-- C18: for the program name, valid flags and exactly two positional
arguments x, y (x not starting with `--`): if y is a banner name the parse
succeeds with Text = x, Banner = y and an empty Substring; otherwise, with a
`--color` flag it succeeds with Substring = x, Text = y, Banner = standard;
otherwise it fails. -/
theorem C18_two_positional_arguments (prog : Str) (flags : List Str) (x y : Str)
    (hflags : ∀ f ∈ flags, ValidFlag f) (hx : HasPrefix x "--".toList = false) :
    (IsBannerName y →
      (ParseColorArgs (prog :: (flags ++ [x, y]))).2 = none ∧
      (ParseColorArgs (prog :: (flags ++ [x, y]))).1.Text = x ∧
      (ParseColorArgs (prog :: (flags ++ [x, y]))).1.Banner = y ∧
      (ParseColorArgs (prog :: (flags ++ [x, y]))).1.Substring = []) ∧
    (¬ IsBannerName y → (∃ f ∈ flags, HasPrefix f "--color=".toList = true) →
      (ParseColorArgs (prog :: (flags ++ [x, y]))).2 = none ∧
      (ParseColorArgs (prog :: (flags ++ [x, y]))).1.Substring = x ∧
      (ParseColorArgs (prog :: (flags ++ [x, y]))).1.Text = y ∧
      (ParseColorArgs (prog :: (flags ++ [x, y]))).1.Banner = "standard".toList) ∧
    (¬ IsBannerName y → (¬ ∃ f ∈ flags, HasPrefix f "--color=".toList = true) →
      (ParseColorArgs (prog :: (flags ++ [x, y]))).2.isSome) := by
  obtain ⟨final, hf, hu, hs, ht, hb⟩ := flagLoop_valid flags
    { UseColor := false, Color := [], Substring := [], Text := [],
      Banner := "standard".toList, OutputFile := [] } x [y] hflags hx
  have hlen : ¬ (prog :: (flags ++ [x, y])).length < 2 := by simp
  have hparse : ParseColorArgs (prog :: (flags ++ [x, y]))
      = if y = "standard".toList ∨ y = "shadow".toList ∨ y = "thinkertoy".toList then
          ({ final with Text := x, Banner := y }, none)
        else if final.UseColor then
          ({ final with Substring := x, Text := y }, none)
        else (final, some "invalid arguments") := by
    unfold ParseColorArgs
    simp only [hlen, if_false, List.drop_succ_cons, List.drop_zero, hf]
    simp
  have huse : final.UseColor = true ↔ ∃ f ∈ flags, HasPrefix f "--color=".toList = true := by
    rw [hu]; simp
  refine ⟨?_, ?_, ?_⟩
  · intro hy
    unfold IsBannerName at hy
    rw [hparse, if_pos hy]
    exact ⟨rfl, rfl, rfl, hs⟩
  · intro hy hc
    unfold IsBannerName at hy
    rw [hparse, if_neg hy, if_pos (huse.mpr hc)]
    exact ⟨rfl, rfl, rfl, hb⟩
  · intro hy hc
    unfold IsBannerName at hy
    have : ¬ final.UseColor = true := fun h => hc (huse.mp h)
    rw [hparse, if_neg hy, if_neg this]
    rfl

theorem validFlag_color_blue : ∀ f ∈ ["--color=blue".toList], ValidFlag f := by
  intro f hf
  rw [List.mem_singleton] at hf
  subst hf
  exact Or.inl ⟨"blue".toList, by decide, by decide⟩

theorem validFlag_output_file : ∀ f ∈ ["--output=file.txt".toList], ValidFlag f := by
  intro f hf
  rw [List.mem_singleton] at hf
  subst hf
  exact Or.inr ⟨"file.txt".toList, by decide, by decide⟩

/-- C18 at the test inputs: `--color=blue kit kitten` gives Substring kit and
Text kitten; `--output=file.txt Hello shadow` gives Text Hello and Banner
shadow. -/
theorem C18_two_positional_arguments_tests :
    ((ParseColorArgs ["program".toList, "--color=blue".toList, "kit".toList,
        "kitten".toList]).2 = none ∧
      (ParseColorArgs ["program".toList, "--color=blue".toList, "kit".toList,
        "kitten".toList]).1.Substring = "kit".toList ∧
      (ParseColorArgs ["program".toList, "--color=blue".toList, "kit".toList,
        "kitten".toList]).1.Text = "kitten".toList ∧
      (ParseColorArgs ["program".toList, "--color=blue".toList, "kit".toList,
        "kitten".toList]).1.Banner = "standard".toList) ∧
    ((ParseColorArgs ["program".toList, "--output=file.txt".toList, "Hello".toList,
        "shadow".toList]).2 = none ∧
      (ParseColorArgs ["program".toList, "--output=file.txt".toList, "Hello".toList,
        "shadow".toList]).1.Text = "Hello".toList ∧
      (ParseColorArgs ["program".toList, "--output=file.txt".toList, "Hello".toList,
        "shadow".toList]).1.Banner = "shadow".toList ∧
      (ParseColorArgs ["program".toList, "--output=file.txt".toList, "Hello".toList,
        "shadow".toList]).1.Substring = []) :=
  ⟨(C18_two_positional_arguments "program".toList ["--color=blue".toList] "kit".toList
      "kitten".toList validFlag_color_blue (by decide)).2.1
      (by unfold IsBannerName; decide) ⟨_, List.mem_singleton.mpr rfl, by decide⟩,
   (C18_two_positional_arguments "program".toList ["--output=file.txt".toList] "Hello".toList
      "shadow".toList validFlag_output_file (by decide)).1
      (Or.inr (Or.inl rfl))⟩

theorem flagLoop_empty_value : ∀ (l : List Str) (opts : ColorOptions),
    ("--output=".toList ∈ l.takeWhile (fun a => HasPrefix a "--".toList) ∨
     "--color=".toList ∈ l.takeWhile (fun a => HasPrefix a "--".toList)) →
    ∃ e, flagLoop l opts = Except.error e := by
  intro l
  induction l with
  | nil => intro opts h; simp at h
  | cons a rest ih =>
    intro opts h
    by_cases ha : HasPrefix a "--".toList = true
    · rw [List.takeWhile_cons, if_pos ha] at h
      unfold flagLoop
      simp only [ha, if_true]
      by_cases hc : HasPrefix a "--color=".toList = true
      · simp only [hc, if_true]
        by_cases he : a.drop 8 = []
        · exact ⟨_, by rw [if_pos he]⟩
        · rw [if_neg he]
          apply ih
          rcases h with h | h
          · rcases List.mem_cons.mp h with h1 | h1
            · rw [← h1] at hc; exact absurd hc (by decide)
            · exact Or.inl h1
          · rcases List.mem_cons.mp h with h1 | h1
            · rw [← h1] at he; exact absurd (by decide) he
            · exact Or.inr h1
      · simp only [hc, Bool.false_eq_true, if_false]
        by_cases ho : HasPrefix a "--output=".toList = true
        · simp only [ho, if_true]
          by_cases he : a.drop 9 = []
          · exact ⟨_, by rw [if_pos he]⟩
          · rw [if_neg he]
            apply ih
            rcases h with h | h
            · rcases List.mem_cons.mp h with h1 | h1
              · rw [← h1] at he; exact absurd (by decide) he
              · exact Or.inl h1
            · rcases List.mem_cons.mp h with h1 | h1
              · rw [← h1] at hc; exact absurd (by decide) hc
              · exact Or.inr h1
        · exact ⟨(opts, "unknown flag"), by simp only [ho, Bool.false_eq_true, if_false]⟩
    · rw [List.takeWhile_cons, if_neg ha] at h
      simp at h

/-- C19: an argument list whose run of leading `--` arguments after the
program name contains exactly `--output=` or exactly `--color=` is rejected
with an error; and the program name, `--output=` with a non-empty file name,
`--color=` with a non-empty colour and a text not starting with `--` parse to
OutputFile, UseColor = true, Color and Text accordingly, without error. -/
theorem C19_empty_flag_value_rejected :
    (∀ args : List Str,
      ("--output=".toList ∈ (args.drop 1).takeWhile (fun a => HasPrefix a "--".toList) ∨
       "--color=".toList ∈ (args.drop 1).takeWhile (fun a => HasPrefix a "--".toList)) →
      (ParseColorArgs args).2.isSome = true) ∧
    (∀ prog f c t : Str, f ≠ [] → c ≠ [] → HasPrefix t "--".toList = false →
      ParseColorArgs [prog, "--output=".toList ++ f, "--color=".toList ++ c, t]
        = ({ UseColor := true, Color := c, Substring := [], Text := t,
             Banner := "standard".toList, OutputFile := f }, none)) := by
  constructor
  · intro args h
    unfold ParseColorArgs
    by_cases hlen : args.length < 2
    · rw [if_pos hlen]; rfl
    · rw [if_neg hlen]
      obtain ⟨e, he⟩ := flagLoop_empty_value (args.drop 1)
        { UseColor := false, Color := [], Substring := [], Text := [],
          Banner := "standard".toList, OutputFile := [] } h
      simp only [he]
      rfl
  · intro prog f c t hf hc ht
    obtain ⟨h1, h2, h3⟩ := colorFlag_facts c
    obtain ⟨g1, g2, g3, g4⟩ := outputFlag_facts f
    unfold ParseColorArgs
    have hlen : ¬ [prog, "--output=".toList ++ f, "--color=".toList ++ c, t].length < 2 := by
      simp
    rw [if_neg hlen]
    have hloop : flagLoop (List.drop 1 [prog, "--output=".toList ++ f, "--color=".toList ++ c, t])
        { UseColor := false, Color := [], Substring := [], Text := [],
          Banner := "standard".toList, OutputFile := [] }
        = Except.ok
            ({ UseColor := true, Color := c, Substring := [], Text := [],
               Banner := "standard".toList, OutputFile := f }, [t]) := by
      show flagLoop [_, _, _] _ = _
      unfold flagLoop
      simp only [g1, g2, g3, g4, if_true, hf, if_false, Bool.false_eq_true]
      unfold flagLoop
      simp only [h1, h2, h3, if_true, hc, if_false]
      unfold flagLoop
      simp only [ht, Bool.false_eq_true, if_false]
    simp only [hloop]
    simp

/-- C19 at the test inputs: `--output=` before Hello is rejected, and
`--output=result.txt --color=red Hello` is accepted. -/
theorem C19_empty_flag_value_tests :
    (ParseColorArgs ["program".toList, "--output=".toList, "Hello".toList]).2.isSome = true ∧
    ParseColorArgs ["program".toList, "--output=".toList ++ "result.txt".toList,
        "--color=".toList ++ "red".toList, "Hello".toList]
      = ({ UseColor := true, Color := "red".toList, Substring := [], Text := "Hello".toList,
           Banner := "standard".toList, OutputFile := "result.txt".toList }, none) :=
  ⟨C19_empty_flag_value_rejected.1 _ (Or.inl (by decide)),
   C19_empty_flag_value_rejected.2 _ _ _ _ (by decide) (by decide) (by decide)⟩

theorem asciiLower_idem (c : Char) : asciiLower (asciiLower c) = asciiLower c := by
  unfold asciiLower Char.toLower
  by_cases h : c.toNat ≥ 65 ∧ c.toNat ≤ 90
  · simp only [h, and_self, if_true]
    have hn : (Char.ofNat (c.toNat + 32)).toNat = c.toNat + 32 :=
      toNat_ofNat_small _ (by omega)
    have : ¬ ((Char.ofNat (c.toNat + 32)).toNat ≥ 65 ∧ (Char.ofNat (c.toNat + 32)).toNat ≤ 90) := by
      rw [hn]; omega
    rw [if_neg this]
  · simp only [h, if_false]

theorem colorCodes_lookup_entry : ∀ e ∈ colorCodes, colorCodes.lookup e.1 = some e.2 := by
  decide

theorem ToLower_idem (lower : Char → Char) (hidem : ∀ c, lower (lower c) = lower c)
    (s : Str) : ToLower lower (ToLower lower s) = ToLower lower s := by
  unfold ToLower
  rw [List.map_map]
  apply List.map_congr_left
  intro c _
  exact hidem c

/-- C20: with the lower-case mapping of the Go library idempotent,
GetColorCode gives the same result on a name and on its lower-cased form; it
reports the colour as existing iff the lower-cased name is one of red, green,
yellow, blue, magenta, cyan, white, orange, black, and then returns the code
the table gives for it. -/
theorem C20_GetColorCode_case_insensitive (lower : Char → Char)
    (hidem : ∀ c, lower (lower c) = lower c) (name : Str) :
    GetColorCode lower name = GetColorCode lower (ToLower lower name) ∧
    ((GetColorCode lower name).2 = true ↔
      ToLower lower name ∈ ["red".toList, "green".toList, "yellow".toList, "blue".toList,
        "magenta".toList, "cyan".toList, "white".toList, "orange".toList, "black".toList]) ∧
    (∀ e ∈ colorCodes, ToLower lower name = e.1 → GetColorCode lower name = (e.2, true)) := by
  refine ⟨?_, ?_, ?_⟩
  · unfold GetColorCode
    simp only [ToLower_idem lower hidem]
  · have hkeys : ["red".toList, "green".toList, "yellow".toList, "blue".toList,
        "magenta".toList, "cyan".toList, "white".toList, "orange".toList, "black".toList]
        = colorCodes.map Prod.fst := by decide
    rw [hkeys]
    unfold GetColorCode
    constructor
    · intro h
      cases hl : colorCodes.lookup (ToLower lower name) with
      | none => simp only [hl] at h; cases h
      | some code =>
        rw [List.lookup_eq_some_iff] at hl
        obtain ⟨l1, l2, heq, _⟩ := hl
        rw [heq]
        simp
    · intro h
      rw [List.mem_map] at h
      obtain ⟨e, he, hfst⟩ := h
      have := colorCodes_lookup_entry e he
      rw [hfst] at this
      simp only [this]
  · intro e he hname
    unfold GetColorCode
    have := colorCodes_lookup_entry e he
    rw [← hname] at this
    simp only [this]

/-- C20 at the test inputs, with the ASCII lower-casing: red and RED give the
code ESC[31m, pink is rejected. -/
theorem C20_GetColorCode_tests :
    (∀ c, asciiLower (asciiLower c) = asciiLower c) ∧
    GetColorCode asciiLower "RED".toList
      = GetColorCode asciiLower (ToLower asciiLower "RED".toList) ∧
    GetColorCode asciiLower "red".toList = ("\x1b[31m".toList, true) ∧
    GetColorCode asciiLower "RED".toList = ("\x1b[31m".toList, true) ∧
    (GetColorCode asciiLower "pink".toList).2 = false :=
  ⟨asciiLower_idem,
   (C20_GetColorCode_case_insensitive asciiLower asciiLower_idem "RED".toList).1,
   by decide, by decide, by decide⟩

theorem lineIndexes_nil (totalPos lineLen : Int) : lineIndexes [] totalPos lineLen = [] := rfl

theorem colorRowLoop_nil (b : Banner) (colorCode : Str) (row : Nat) :
    ∀ (chars : List Char) (k : Nat) (builder : Str),
    colorRowLoop b colorCode [] row chars k builder = chars.foldlM (lineStep b row) builder := by
  intro chars
  induction chars with
  | nil => intro k builder; rfl
  | cons ch rest ih =>
    intro k builder
    rw [List.foldlM_cons]
    unfold colorRowLoop lineStep
    simp only [ContainsIndex, Bool.false_eq_true, if_false]
    cases (match b.get ch with
      | some g => g
      | none => List.replicate charHeight [])[row]? with
    | none => rfl
    | some cell => exact ih (k + 1) (builder ++ cell)

theorem renderSingleLineWithColor_nil (input : Str) (b : Banner) (colorCode : Str) :
    renderSingleLineWithColor input b colorCode [] = RenderLine input b := by
  rw [RenderLine_unfold]
  unfold renderSingleLineWithColor
  simp only [colorRowLoop_nil]

theorem colorParts_nil (b : Banner) (colorCode : Str) (n : Nat) :
    ∀ (rest : List Str) (i : Nat) (builder : Str) (hadText : Bool) (totalPos : Int),
    colorParts b colorCode [] n rest i builder hadText totalPos
      = renderParts b n rest i builder hadText := by
  intro rest
  induction rest with
  | nil => intro i builder hadText totalPos; rfl
  | cons line rest ih =>
    intro i builder hadText totalPos
    unfold colorParts renderParts
    simp only [lineIndexes_nil, renderSingleLineWithColor_nil, ih]

/-- C24: with an empty position list RenderWithColor returns exactly what
RenderInput returns on the same raw text, for every glyph set and colour
code (empty, single-line and multi-line texts alike); on a glyph set with
tall enough entries that common result is a returned output. -/
theorem C24_colored_refines_plain (raw : Str) (b : Banner) (colorCode : Str) :
    RenderWithColor raw b colorCode [] = RenderInput raw b ∧
    (b.TallEnough → ∃ out, RenderInput raw b = some out ∧
      RenderWithColor raw b colorCode [] = some out) := by
  have heq : RenderWithColor raw b colorCode [] = RenderInput raw b := by
    unfold RenderWithColor RenderInput renderMultiLineWithColor
    by_cases hnil : decodeEscapedNewlines raw = []
    · simp only [hnil, if_true]
    · by_cases hnl : LF ∈ decodeEscapedNewlines raw
      · simp only [hnil, if_false, hnl, if_true, not_true_eq_false, colorParts_nil]
      · simp only [hnil, if_false, hnl, not_false_eq_true, if_true,
          renderSingleLineWithColor_nil]
  refine ⟨heq, fun hb => ?_⟩
  have hsome : ∃ out, RenderInput raw b = some out := by
    unfold RenderInput
    by_cases hnil : decodeEscapedNewlines raw = []
    · exact ⟨[], by simp only [hnil, if_true]⟩
    · by_cases hnl : LF ∈ decodeEscapedNewlines raw
      · have h1 := RenderInput_multi raw b hnl
        rw [inputSpec_tall b hb] at h1
        unfold RenderInput at h1
        exact ⟨_, h1⟩
      · exact ⟨_, by
          simp only [hnil, if_false, hnl, not_false_eq_true, if_true]
          exact RenderLine_eq_rowMajor _ b hb⟩
  obtain ⟨out, ho⟩ := hsome
  exact ⟨out, ho, by rw [heq, ho]⟩

theorem tallEnough_of_valid (b : Banner) (h : b.Valid) : b.TallEnough :=
  fun ch g hg => Nat.le_of_eq (h ch g hg).symm

theorem fillOffsetsChecked_eq : ∀ (rest : List Char) (i : Nat) (result : List Int),
    i + len rest ≤ result.length →
    fillOffsetsChecked rest i result = some (fillOffsets rest i result) := by
  intro rest
  induction rest with
  | nil => intro i result _; rfl
  | cons ch rest ih =>
    intro i result h
    have hpos := ch.utf8Size_pos
    have hlen : len (ch :: rest) = ch.utf8Size + len rest := by
      simp [len, bytes, List.flatMap_cons]
    rw [hlen] at h
    unfold fillOffsetsChecked fillOffsets
    rw [if_pos (by omega)]
    apply ih
    rw [List.length_set, String.length_utf8EncodeChar]
    omega

theorem foldlM_checked_eq (t s : List UInt8) : ∀ (is : List Nat) (acc : List Int),
    (∀ i ∈ is, i + s.length ≤ t.length) →
    is.foldlM (fun indexes i => do
      let window ← sliceChecked t i (i + s.length)
      if window = s then
        pure ((List.range s.length).foldl
          (fun indexes j => indexes ++ [((i + j : Nat) : Int)]) indexes)
      else pure indexes) acc
    = some (is.foldl (fun indexes i =>
      if sliceBytes t i (i + s.length) = s then
        (List.range s.length).foldl (fun indexes j => indexes ++ [((i + j : Nat) : Int)]) indexes
      else indexes) acc) := by
  intro is
  induction is with
  | nil => intro acc _; rfl
  | cons i rest ih =>
    intro acc h
    have hi := h i (List.mem_cons_self _ _)
    have hslice : sliceChecked t i (i + s.length) = some (sliceBytes t i (i + s.length)) := by
      unfold sliceChecked sliceBytes
      rw [if_pos ⟨by omega, hi⟩]
    rw [List.foldlM_cons, List.foldl_cons, hslice]
    simp only [Option.bind_eq_bind, Option.some_bind]
    split
    · exact ih _ (fun j hj => h j (List.mem_cons_of_mem _ hj))
    · exact ih _ (fun j hj => h j (List.mem_cons_of_mem _ hj))

theorem FindSubstringIndexesChecked_eq (text substring : Str) :
    FindSubstringIndexesChecked text substring = some (FindSubstringIndexes text substring) := by
  unfold FindSubstringIndexesChecked FindSubstringIndexes
  by_cases h : substring = []
  · rw [if_pos h, if_pos h]
    exact fillOffsetsChecked_eq text 0 _ (by simp)
  · rw [if_neg h, if_neg h]
    apply foldlM_checked_eq
    intro i hi
    rw [List.mem_range] at hi
    omega

theorem colorParts_isSome (b : Banner) (hb : b.TallEnough) (colorCode : Str)
    (indexes : List Int) (n : Nat) :
    ∀ (rest : List Str) (i : Nat) (builder : Str) (hadText : Bool) (totalPos : Int),
    ∃ out, colorParts b colorCode indexes n rest i builder hadText totalPos = some out := by
  intro rest
  induction rest with
  | nil => intro i builder hadText totalPos; exact ⟨builder, rfl⟩
  | cons line rest ih =>
    intro i builder hadText totalPos
    unfold colorParts
    simp only [renderSingleLineWithColor_eq _ b hb, Option.bind_eq_bind, Option.some_bind]
    split
    · exact ih _ _ _ _
    · split
      · exact ih _ _ _ _
      · split
        · exact ih _ _ _ _
        · exact ih _ _ _ _

theorem RenderWithColor_isSome (raw : Str) (b : Banner) (hb : b.TallEnough) (colorCode : Str)
    (indexes : List Int) : ∃ out, RenderWithColor raw b colorCode indexes = some out := by
  unfold RenderWithColor renderMultiLineWithColor
  by_cases hnil : decodeEscapedNewlines raw = []
  · exact ⟨[], by simp only [hnil, if_true]⟩
  · by_cases hnl : LF ∈ decodeEscapedNewlines raw
    · simp only [hnil, if_false, hnl, if_true]
      exact colorParts_isSome b hb colorCode indexes _ _ _ _ _ _
    · simp only [hnil, if_false, hnl]
      exact ⟨_, renderSingleLineWithColor_eq _ b hb colorCode indexes⟩

theorem RenderInput_isSome (raw : Str) (b : Banner) (hb : b.TallEnough) :
    ∃ out, RenderInput raw b = some out := by
  unfold RenderInput
  by_cases hnil : decodeEscapedNewlines raw = []
  · exact ⟨[], by simp only [hnil, if_true]⟩
  · by_cases hnl : LF ∈ decodeEscapedNewlines raw
    · have h1 := RenderInput_multi raw b hnl
      rw [inputSpec_tall b hb] at h1
      unfold RenderInput at h1
      exact ⟨_, h1⟩
    · exact ⟨_, by
        simp only [hnil, if_false, hnl, not_false_eq_true, if_true]
        exact RenderLine_eq_rowMajor _ b hb⟩

theorem LoadBanner_valid (data : Str) (banner : Banner)
    (h : LoadBanner (some data) = (some banner, none)) : banner.Valid := by
  obtain ⟨hge, rfl⟩ := LoadBanner_success_lines data banner h
  intro ch g hg
  obtain ⟨hr, rfl⟩ := bannerOf_get_some _ ch g hg
  exact glyphAt_length _ _ hr hge

/-- C21: on a glyph set whose entries all have exactly 8 rows, RenderInput
and RenderWithColor return an output (no out-of-range row access) for every
raw text, colour code and position list, negative and out-of-range positions
included; every mapping of a successful LoadBanner is such a glyph set; and
FindSubstringIndexes, run with the bounds checks of Go on every slice and
index, never fails, for every text and substring. -/
theorem C21_rendering_is_total (b : Banner) (hb : b.Valid) :
    (∀ raw : Str, ∃ out, RenderInput raw b = some out) ∧
    (∀ (raw colorCode : Str) (indexes : List Int),
      ∃ out, RenderWithColor raw b colorCode indexes = some out) ∧
    (∀ (data : Str) (banner : Banner),
      LoadBanner (some data) = (some banner, none) → banner.Valid) ∧
    (∀ text substring : Str,
      FindSubstringIndexesChecked text substring
        = some (FindSubstringIndexes text substring)) :=
  ⟨fun raw => RenderInput_isSome raw b (tallEnough_of_valid b hb),
   fun raw colorCode indexes =>
     RenderWithColor_isSome raw b (tallEnough_of_valid b hb) colorCode indexes,
   LoadBanner_valid, FindSubstringIndexesChecked_eq⟩

theorem fakeBanner_valid : fakeBanner.Valid := by
  intro ch g hg
  unfold Banner.get at hg
  rw [List.lookup_eq_some_iff] at hg
  obtain ⟨l1, l2, heq, _⟩ := hg
  have hmem : (ch, g) ∈ fakeBanner := by rw [heq]; simp
  have hall : ∀ e ∈ fakeBanner, e.2.length = charHeight := by decide
  exact hall (ch, g) hmem

/-- C21 at the test banner: a text with an unknown character and positions
-1 and 99 renders without failure, and a substring longer than the text is
searched without failure. -/
theorem C21_rendering_is_total_tests :
    fakeBanner.Valid ∧
    (∃ out, RenderWithColor "AZ\\nB".toList fakeBanner "<".toList [-1, 99] = some out) ∧
    (∃ out, RenderInput "AZ\\nB".toList fakeBanner = some out) ∧
    FindSubstringIndexesChecked "hi".toList "hello".toList = some [] :=
  ⟨fakeBanner_valid,
   (C21_rendering_is_total fakeBanner fakeBanner_valid).2.1 _ _ _,
   (C21_rendering_is_total fakeBanner fakeBanner_valid).1 _,
   by decide⟩

theorem accentBanner_tallEnough : accentBanner.TallEnough :=
  tallEnough_of_entries _ (by decide)

theorem decode_textEA : decodeEscapedNewlines textEA = textEA := by
  rw [decodeEscapedNewlines_eq_dec]; decide

/-- C22, the program at the input of the claim: for the text U+00E9, a and
the substring a, FindSubstringIndexes returns the byte offset 2, while
RenderWithColor compares positions with the code point index (a has index
1): the output colours no character, where the claim has the second
character coloured. -/
theorem C22_byte_offsets_miss_the_character :
    FindSubstringIndexes textEA "a".toList = [2] ∧
    RenderWithColor textEA accentBanner "<".toList (FindSubstringIndexes textEA "a".toList)
      = some "e0a0\ne1a1\ne2a2\ne3a3\ne4a4\ne5a5\ne6a6\ne7a7\n".toList ∧
    RenderWithColor textEA accentBanner "<".toList (FindSubstringIndexes textEA "a".toList)
      ≠ some (coloredArt accentBanner "<".toList (fun k => decide (k = 1)) textEA) ∧
    coloredArt accentBanner "<".toList (fun k => decide (k = 1)) textEA
      = ("e0<a0\x1b[0m\ne1<a1\x1b[0m\ne2<a2\x1b[0m\ne3<a3\x1b[0m\n".toList ++
         "e4<a4\x1b[0m\ne5<a5\x1b[0m\ne6<a6\x1b[0m\ne7<a7\x1b[0m\n".toList) := by
  have hne : decodeEscapedNewlines textEA ≠ [] := by rw [decode_textEA]; decide
  have hnl : LF ∉ decodeEscapedNewlines textEA := by rw [decode_textEA]; decide
  have h2 : FindSubstringIndexes textEA "a".toList = [2] := by decide
  have hrender : RenderWithColor textEA accentBanner "<".toList [2]
      = some "e0a0\ne1a1\ne2a2\ne3a3\ne4a4\ne5a5\ne6a6\ne7a7\n".toList := by
    unfold RenderWithColor
    simp only [hne, hnl, if_false]
    rw [renderSingleLineWithColor_eq _ _ accentBanner_tallEnough, decode_textEA]
    decide
  refine ⟨h2, ?_, ?_, by decide⟩
  · rw [h2]; exact hrender
  · rw [h2, hrender]
    decide

theorem parse_argsColorTextBanner :
    ParseColorArgs argsColorTextBanner
      = ({ UseColor := true, Color := "red".toList, Substring := [], Text := "Hello".toList,
           Banner := "standard".toList, OutputFile := [] }, none) := by
  decide

theorem parse_argsColorText :
    ParseColorArgs argsColorText
      = ({ UseColor := true, Color := "red".toList, Substring := [], Text := "Hello".toList,
           Banner := "standard".toList, OutputFile := [] }, none) := by
  decide

theorem getColorCode_red : GetColorCode asciiLower "red".toList = ("\x1b[31m".toList, true) := by
  decide

/-- C23, the program at the input of the claim: `prog --color=red Hello
standard` is accepted with an empty Substring, and since it has 4 arguments
Step 6c takes the warning branch and renders Hello without colour, although
no substring argument was given; with the 3 arguments `prog --color=red
Hello` the same options reach Step 6d and every position 0..4 is coloured. -/
theorem C23_banner_argument_triggers_warning :
    (ParseColorArgs argsColorTextBanner).2 = none ∧
    (ParseColorArgs argsColorTextBanner).1.Substring = [] ∧
    main asciiLower (fun _ => some blockFile) argsColorTextBanner
      = MainOutcome.warnedPlain
          (RenderInput "Hello".toList (bannerOf (bannerLines blockFile))) [] ∧
    main asciiLower (fun _ => some blockFile) argsColorText
      = MainOutcome.colored
          (RenderWithColor "Hello".toList (bannerOf (bannerLines blockFile))
            "\x1b[31m".toList [0, 1, 2, 3, 4]) [] := by
  refine ⟨by rw [parse_argsColorTextBanner], by rw [parse_argsColorTextBanner], ?_, ?_⟩
  · unfold main
    simp only [parse_argsColorTextBanner, if_true, blockFile_loads, Option.getD_some,
      getColorCode_red]
    rfl
  · have hidx : FindSubstringIndexes "Hello".toList [] = [0, 1, 2, 3, 4] := by decide
    unfold main
    simp only [parse_argsColorText, if_true, blockFile_loads, Option.getD_some,
      getColorCode_red]
    simp only [mainColored, hidx]
    rfl

/-- C24 at the test banner: the text A, escape, B renders the same with an
empty position list as without colour, and the result is returned. -/
theorem C24_colored_refines_plain_A_B :
    fakeBanner.TallEnough ∧
    RenderWithColor "A\\nB".toList fakeBanner "<".toList [] = RenderInput "A\\nB".toList fakeBanner ∧
    ∃ out, RenderInput "A\\nB".toList fakeBanner = some out ∧
      RenderWithColor "A\\nB".toList fakeBanner "<".toList [] = some out :=
  ⟨fakeBanner_tallEnough,
   (C24_colored_refines_plain "A\\nB".toList fakeBanner "<".toList).1,
   (C24_colored_refines_plain "A\\nB".toList fakeBanner "<".toList).2 fakeBanner_tallEnough⟩

end AsciiArt
